import Mathlib

/-!
# Verification of the JaxSim multibody-dynamics core

A shallow embedding of the multibody-dynamics computation engine described in
`spec.md` of the JaxSim repository.  The Python sources of the library are not
part of this snapshot (only an example notebook calling the public API is), so
every definition below is modelled from the specification text, over exact
rational arithmetic: 6D spatial vectors are `Fin 3 ⊕ Fin 3 → ℚ` (linear part
first), spatial transforms are 6×6 block-adjoint matrices, and the kinematic
tree is traversed by flat indexed passes, as prescribed by the spec's design
notes (§9).

The file is organized as definitions first (the embedded engine), then
theorems (general lemmas about the engine, the claim theorems, and concrete
witnesses).
-/

namespace JaxSimSpec

open Matrix

abbrev V3 := Fin 3 → ℚ

abbrev M3 := Matrix (Fin 3) (Fin 3) ℚ

/-- Spatial index of a 6D vector: linear components first, then angular. -/
abbrev SIdx := Fin 3 ⊕ Fin 3

abbrev V6 := SIdx → ℚ

abbrev M6 := Matrix SIdx SIdx ℚ

/-- The skew-symmetric 3×3 matrix of a 3-vector, so that `(sk x).mulVec v`
is the cross product `x ×₃ v`. -/
def sk (x : V3) : M3 :=
  !![0, -x 2, x 1; x 2, 0, -x 0; -x 1, x 0, 0]

/-- Modelled from the spec: an SE(3) pose (`KinematicsEngine` §4.1), stored as
a rotation matrix and a translation vector. -/
structure Pose where
  R : M3
  p : V3

/-- The identity pose. -/
def Pose.one : Pose := ⟨1, 0⟩

/-- Pose composition `H_{A,C} = H_{A,B} * H_{B,C}`. -/
def Pose.comp (A B : Pose) : Pose :=
  ⟨A.R * B.R, A.R.mulVec B.p + A.p⟩

/-- Pose inverse `(R, p)⁻¹ = (Rᵀ, -Rᵀ p)`. -/
def Pose.inv (A : Pose) : Pose :=
  ⟨A.Rᵀ, -(A.Rᵀ.mulVec A.p)⟩

/-- A rotation matrix is special orthogonal. -/
def SO3 (R : M3) : Prop := Rᵀ * R = 1 ∧ R.det = 1

/-- A pose is valid when its rotation block is special orthogonal. -/
abbrev Pose.Valid (H : Pose) : Prop := SO3 H.R

/-- Modelled from the spec (§4.1): the 6×6 block-adjoint velocity transform of
a pose, in the linear-first convention: `Ad(H) (v, ω) = (R v + p × R ω, R ω)`. -/
def Ad (H : Pose) : M6 :=
  Matrix.fromBlocks H.R (sk H.p * H.R) 0 H.R

/-- Modelled from the spec (§3): an auxiliary massless frame rigidly attached
to a link by a fixed offset transform. -/
structure FrameDef where
  name : String
  parent : ℕ
  offset : Pose

/-- Modelled from the spec (§3 KinematicTree): an immutable rooted tree of
links connected by 1-DoF joints.  Links are indexed `0 .. nJ` with link `0`
the floating base; the joint whose child is link `i ≥ 1` connects it to link
`par i` with `par i < i` (dense indices in topological order, as required by
the spec's design note §9).  Each joint carries a motion-subspace vector `S i`
and a parent-to-child pose that is a function of the joint position; each link
carries its 6×6 spatial inertia, mass, centre of mass and name. -/
structure MBModel where
  nJ : ℕ
  par : ℕ → ℕ
  par_lt : ∀ i, 1 ≤ i → i ≤ nJ → par i < i
  jointPose : ℕ → ℚ → Pose
  S : ℕ → V6
  inertia : ℕ → M6
  mass : ℕ → ℚ
  com : ℕ → V3
  linkName : ℕ → String
  frames : List FrameDef
  gravity : V3

/-- Modelled from the spec: `dofs()` is the number of (non-locked) joints of
the model. -/
def MBModel.dofs (m : MBModel) : ℕ := m.nJ

/-- Number of links of the model (the floating base plus one link per joint). -/
def MBModel.nLinks (m : MBModel) : ℕ := m.nJ + 1

/-- Generalized-coordinate index: 6 base components plus one per joint. -/
abbrev GIdx (n : ℕ) := SIdx ⊕ Fin n

/-- Modelled from the spec (§3 StateVector): generalized position (base pose
and joint positions) and generalized velocity (body-fixed base 6D velocity and
joint velocities).  Joint quantities are indexed by the child-link index. -/
structure MBData where
  basePose : Pose
  q : ℕ → ℚ
  baseVel : V6
  sdot : ℕ → ℚ

/-- The stacked generalized velocity `ν` (body-fixed base part first). -/
def genVel (m : MBModel) (d : MBData) : GIdx m.nJ → ℚ :=
  Sum.elim d.baseVel fun j => d.sdot (j.val + 1)

/-- Modelled from the spec (§9 design notes): a tree traversal in topological
(parent-before-child) order realized as a flat indexed loop.  Stage `k`
has processed links `0 .. k`; `init` is the base value and `step i pv`
computes link `i`'s value from its parent's value `pv`. -/
def fwdAcc {V : Type} (par : ℕ → ℕ) (init : V) (step : ℕ → V → V) : ℕ → ℕ → V
  | 0, _ => init
  | k + 1, i =>
      if i = k + 1 then step (k + 1) (fwdAcc par init step k (par (k + 1)))
      else fwdAcc par init step k i

/-- Modelled from the spec (§9 design notes): a tree traversal in reverse
topological (child-before-parent) order realized as a flat indexed loop over
`n` joints.  Stage `k + 1` processes the joint of child link `n - k`, adding
its (already final) accumulated value, mapped through `contrib`, to its
parent's accumulator, which starts at `w`. -/
def bwdAcc {V : Type} [AddCommMonoid V] (par : ℕ → ℕ) (n : ℕ) (w : ℕ → V)
    (contrib : ℕ → V → V) : ℕ → ℕ → V
  | 0, i => w i
  | k + 1, i =>
      if 1 ≤ n - k ∧ i = par (n - k) then
        bwdAcc par n w contrib k i + contrib (n - k) (bwdAcc par n w contrib k (n - k))
      else bwdAcc par n w contrib k i

/-- The completed backward pass. -/
def bwdVal {V : Type} [AddCommMonoid V] (par : ℕ → ℕ) (n : ℕ) (w : ℕ → V)
    (contrib : ℕ → V → V) : ℕ → V :=
  bwdAcc par n w contrib n

/-- Children of link `i`: the links `1 .. n` whose parent is `i`. -/
def childSet (par : ℕ → ℕ) (n : ℕ) (i : ℕ) : Finset ℕ :=
  (Finset.Ioc 0 n).filter fun c => par c = i

/-! ## Kinematics engine (spec §4.1) -/

/-- The joint velocity transform `X_{i ← par i}`: the adjoint of the inverse
of the parent-to-child joint pose at the current joint position. -/
def jointX (m : MBModel) (d : MBData) (i : ℕ) : M6 :=
  Ad ((m.jointPose i (d.q i)).inv)

/-- Body-fixed 6D velocity of every link, by the spec's single forward pass:
`v 0 = ν_base`, `v i = X i * v (par i) + ṡ i • S i`. -/
def linkVel (m : MBModel) (d : MBData) : ℕ → V6 :=
  fwdAcc m.par d.baseVel
    (fun i vp => (jointX m d i).mulVec vp + d.sdot i • m.S i) m.nJ

/-- The matrix whose only nonzero column is column `i - 1` (the generalized
coordinate of the joint with child link `i`), equal to `v`. -/
def jointCol (n : ℕ) (v : V6) (i : ℕ) : Matrix SIdx (Fin n) ℚ :=
  Matrix.of fun r j => if (j : ℕ) + 1 = i then v r else 0

/-- Body-fixed free-floating Jacobian of every link, by the same forward
pass: `J 0 = [1 | 0]`, `J i = X i * J (par i) + S i ⊗ e_i`, preserving the
spec's path sparsity structurally. -/
def linkJac (m : MBModel) (d : MBData) : ℕ → Matrix SIdx (GIdx m.nJ) ℚ :=
  fwdAcc m.par (Matrix.fromColumns 1 0)
    (fun i Jp => jointX m d i * Jp + Matrix.fromColumns 0 (jointCol m.nJ (m.S i) i)) m.nJ

/-- World pose of every link by forward kinematics:
`H 0 = W_H_B`, `H i = H (par i) * jointPose i (q i)`. -/
def fkPose (m : MBModel) (d : MBData) : ℕ → Pose :=
  fwdAcc m.par d.basePose (fun i Hp => Hp.comp (m.jointPose i (d.q i))) m.nJ

/-- Modelled from the spec (§2, §4.1): the three velocity representations. -/
inductive VelRepr where
  | Body
  | Mixed
  | Inertial

/-- The 6×6 conversion map taking a body-fixed 6D velocity of a frame with
world pose `H` to the requested representation: identity for Body, `Ad H` for
Inertial, and the adjoint of the world-aligned pose at the frame origin for
Mixed. -/
def reprX (r : VelRepr) (H : Pose) : M6 :=
  match r with
  | .Body => 1
  | .Mixed => Ad ⟨H.R, 0⟩
  | .Inertial => Ad H

/-- The inverse conversion map (the adjoint of the inverse pose). -/
def reprXinv (r : VelRepr) (H : Pose) : M6 :=
  match r with
  | .Body => 1
  | .Mixed => Ad (Pose.inv ⟨H.R, 0⟩)
  | .Inertial => Ad H.inv

/-- Modelled from the spec: `js.link.velocity` — the link 6D velocity in a
requested output representation. -/
def linkVelRepr (m : MBModel) (d : MBData) (r : VelRepr) (i : ℕ) : V6 :=
  (reprX r (fkPose m d i)).mulVec (linkVel m d i)

/-- The data's generalized velocity as exposed in representation `r`: the
base 6D velocity is converted, joint velocities are representation-free. -/
def genVelRepr (m : MBModel) (d : MBData) (r : VelRepr) : GIdx m.nJ → ℚ :=
  Sum.elim ((reprX r d.basePose).mulVec d.baseVel) fun j => d.sdot (j.val + 1)

/-- Modelled from the spec: `js.link.jacobian` — the free-floating Jacobian
whose input representation is the data's active representation `rin` and
whose output representation is the requested `rout`. -/
def linkJacRepr (m : MBModel) (d : MBData) (rin rout : VelRepr) (i : ℕ) :
    Matrix SIdx (GIdx m.nJ) ℚ :=
  reprX rout (fkPose m d i) * linkJac m d i *
    Matrix.fromBlocks (reprXinv rin d.basePose) 0 0 1

/-- World pose of a frame: the parent link pose composed with the offset. -/
def framePose (m : MBModel) (d : MBData) (fd : FrameDef) : Pose :=
  (fkPose m d fd.parent).comp fd.offset

/-- Body-fixed 6D velocity of a frame (rigidly attached to its parent). -/
def frameVelBody (m : MBModel) (d : MBData) (fd : FrameDef) : V6 :=
  (Ad fd.offset.inv).mulVec (linkVel m d fd.parent)

/-- Modelled from the spec: `js.frame.velocity`. -/
def frameVelRepr (m : MBModel) (d : MBData) (r : VelRepr) (fd : FrameDef) : V6 :=
  (reprX r (framePose m d fd)).mulVec (frameVelBody m d fd)

/-- Modelled from the spec: `js.frame.jacobian`. -/
def frameJacRepr (m : MBModel) (d : MBData) (rin rout : VelRepr) (fd : FrameDef) :
    Matrix SIdx (GIdx m.nJ) ℚ :=
  reprX rout (framePose m d fd) * (Ad fd.offset.inv * linkJac m d fd.parent) *
    Matrix.fromBlocks (reprXinv rin d.basePose) 0 0 1

/-! ## Checked index queries and name lookups (spec §4.1 failure mode, §7) -/

/-- Modelled from the spec (§7 StructuralError): the link transform query
with an index check — an unknown index is an out-of-range error, never a
silent fallback. -/
def linkTransformChecked (m : MBModel) (d : MBData) (idx : ℕ) : Except String Pose :=
  if idx < m.nLinks then .ok (fkPose m d idx) else .error "link index out of range"

/-- Checked link velocity query. -/
def linkVelChecked (m : MBModel) (d : MBData) (r : VelRepr) (idx : ℕ) :
    Except String V6 :=
  if idx < m.nLinks then .ok (linkVelRepr m d r idx) else .error "link index out of range"

/-- Checked link Jacobian query. -/
def linkJacChecked (m : MBModel) (d : MBData) (rin rout : VelRepr) (idx : ℕ) :
    Except String (Matrix SIdx (GIdx m.nJ) ℚ) :=
  if idx < m.nLinks then .ok (linkJacRepr m d rin rout idx)
  else .error "link index out of range"

/-- The frame stored at index `idx`, if any. -/
def frameAt (m : MBModel) (idx : ℕ) : Option FrameDef :=
  m.frames[idx]?

/-- Checked frame transform query. -/
def frameTransformChecked (m : MBModel) (d : MBData) (idx : ℕ) : Except String Pose :=
  match frameAt m idx with
  | some fd => .ok (framePose m d fd)
  | none => .error "frame index out of range"

/-- Checked frame velocity query. -/
def frameVelChecked (m : MBModel) (d : MBData) (r : VelRepr) (idx : ℕ) :
    Except String V6 :=
  match frameAt m idx with
  | some fd => .ok (frameVelRepr m d r fd)
  | none => .error "frame index out of range"

/-- Checked frame Jacobian query. -/
def frameJacChecked (m : MBModel) (d : MBData) (rin rout : VelRepr) (idx : ℕ) :
    Except String (Matrix SIdx (GIdx m.nJ) ℚ) :=
  match frameAt m idx with
  | some fd => .ok (frameJacRepr m d rin rout fd)
  | none => .error "frame index out of range"

/-- First index `< k` whose name under `f` is `nm`. -/
def findName (f : ℕ → String) (nm : String) : ℕ → Option ℕ
  | 0 => none
  | k + 1 =>
      match findName f nm k with
      | some i => some i
      | none => if f k = nm then some k else none

/-- Modelled from the spec: `js.link.name_to_idx`. -/
def link_name_to_idx (m : MBModel) (nm : String) : Option ℕ :=
  findName m.linkName nm m.nLinks

/-- Modelled from the spec: `js.link.idx_to_name`. -/
def link_idx_to_name (m : MBModel) (i : ℕ) : String :=
  m.linkName i

/-- The name of the frame stored at index `idx` (frames out of range get the
empty placeholder, which checked queries never reach). -/
def frameNameAt (m : MBModel) (idx : ℕ) : String :=
  match frameAt m idx with
  | some fd => fd.name
  | none => ""

/-- Modelled from the spec: `js.frame.name_to_idx`. -/
def frame_name_to_idx (m : MBModel) (nm : String) : Option ℕ :=
  findName (frameNameAt m) nm m.frames.length

/-- Modelled from the spec: `js.frame.idx_to_name`. -/
def frame_idx_to_name (m : MBModel) (i : ℕ) : String :=
  frameNameAt m i

/-- Modelled from the spec (§4.1): conversion of a 6D velocity from the Body
representation to the Inertial representation, given the current transform. -/
def velToInertial (H : Pose) (v : V6) : V6 :=
  (reprX .Inertial H).mulVec v

/-- Conversion of a 6D velocity from the Inertial representation back to the
Body representation, given the current transform. -/
def velToBody (H : Pose) (w : V6) : V6 :=
  (reprXinv .Inertial H).mulVec w

/-- Link names are unique (spec §3: "Link: unique index, name"). -/
def LinkNamesInj (m : MBModel) : Prop :=
  ∀ i j, i < m.nLinks → j < m.nLinks → m.linkName i = m.linkName j → i = j

/-- Frame names are unique. -/
def FrameNamesInj (m : MBModel) : Prop :=
  ∀ i j, i < m.frames.length → j < m.frames.length →
    frameNameAt m i = frameNameAt m j → i = j

/-! ## Dynamics engine (spec §4.2) -/

/-- Spatial motion cross product (linear-first):
`crm (v, ω) (v₂, ω₂) = (ω × v₂ + v × ω₂, ω × ω₂)`. -/
def crm (v : V6) : M6 :=
  Matrix.fromBlocks (sk (v ∘ Sum.inr)) (sk (v ∘ Sum.inl)) 0 (sk (v ∘ Sum.inr))

/-- Spatial force cross product, the negative transpose of `crm`. -/
def crf (v : V6) : M6 :=
  -(crm v)ᵀ

/-- The world-frame gravity 6D acceleration (zero angular part). -/
def grav6 (m : MBModel) : V6 :=
  Sum.elim m.gravity 0

/-- The gravity spatial acceleration expressed in the base frame. -/
def agBase (m : MBModel) (d : MBData) : V6 :=
  (Ad d.basePose.inv).mulVec (grav6 m)

/-- The generalized coordinate of the joint with child link `i` inside a
stacked vector (zero outside the joint range). -/
def jointCoord {n : ℕ} (x : GIdx n → ℚ) (i : ℕ) : ℚ :=
  if h : i - 1 < n then x (Sum.inr ⟨i - 1, h⟩) else 0

/-- The entry of a joint-indexed vector for the joint with child link `i`. -/
def finCoord {n : ℕ} (x : Fin n → ℚ) (i : ℕ) : ℚ :=
  if h : i - 1 < n then x ⟨i - 1, h⟩ else 0

/-- The velocity-product acceleration term of the joint with child link `i`
(body-frame recursion with constant motion subspace). -/
def cTerm (m : MBModel) (d : MBData) (i : ℕ) : V6 :=
  (crm (linkVel m d i)).mulVec (d.sdot i • m.S i)

/-- Body-fixed gravity-offset link accelerations for a given generalized
acceleration, by the spec's RNEA forward pass (§4.2): the base is seeded with
`ν̇_base - a_gravity` and each joint adds its motion-subspace and
velocity-product contributions. -/
def linkAcc (m : MBModel) (d : MBData) (nudot : GIdx m.nJ → ℚ) : ℕ → V6 :=
  fwdAcc m.par ((nudot ∘ Sum.inl) - agBase m d)
    (fun i ap => (jointX m d i).mulVec ap + jointCoord nudot i • m.S i + cTerm m d i)
    m.nJ

/-- The pure-gravity link accelerations (zero generalized acceleration and
zero velocity): only the propagated base gravity term. -/
def gravAcc (m : MBModel) (d : MBData) : ℕ → V6 :=
  fwdAcc m.par (-(agBase m d)) (fun i ap => (jointX m d i).mulVec ap) m.nJ

/-- The per-link net spatial force seed of the RNEA backward pass: inertial
force plus velocity bias minus the external force applied to the link. -/
def rneaSeed (m : MBModel) (d : MBData) (nudot : GIdx m.nJ → ℚ) (fext : ℕ → V6)
    (i : ℕ) : V6 :=
  (m.inertia i).mulVec (linkAcc m d nudot i)
    + (crf (linkVel m d i)).mulVec ((m.inertia i).mulVec (linkVel m d i))
    - fext i

/-- The spec's RNEA backward pass (§4.2): spatial forces accumulated from the
leaves to the base, children forces mapped through `X_cᵀ`. -/
def rneaForce (m : MBModel) (d : MBData) (nudot : GIdx m.nJ → ℚ) (fext : ℕ → V6) :
    ℕ → V6 :=
  bwdVal m.par m.nJ (rneaSeed m d nudot fext) fun c f => (jointX m d c)ᵀ.mulVec f

/-- The stacked generalized force returned by RNEA: the net base 6D force
followed by the joint projections `S_jᵀ f_j` (the spec insists the base force
is a first-class output). -/
def rneaGen (m : MBModel) (d : MBData) (nudot : GIdx m.nJ → ℚ) (fext : ℕ → V6) :
    GIdx m.nJ → ℚ :=
  Sum.elim (rneaForce m d nudot fext 0)
    fun j => m.S (j.val + 1) ⬝ᵥ rneaForce m d nudot fext (j.val + 1)

/-- Modelled from the spec: `js.model.inverse_dynamics` — RNEA returning the
pair `(f_B, τ)` of the net base 6D force and the joint torques realizing the
prescribed accelerations under the given external link forces. -/
def inverse_dynamics (m : MBModel) (d : MBData) (aB : V6) (sdd : Fin m.nJ → ℚ)
    (fext : ℕ → V6) : V6 × (Fin m.nJ → ℚ) :=
  ((rneaGen m d (Sum.elim aB sdd) fext) ∘ Sum.inl,
   (rneaGen m d (Sum.elim aB sdd) fext) ∘ Sum.inr)

/-- The data with its generalized velocity zeroed (used by the spec's
zero-velocity RNEA pass isolating gravity forces). -/
def zeroVelData (d : MBData) : MBData :=
  { d with baseVel := 0, sdot := fun _ => 0 }

/-- Modelled from the spec: `js.model.free_floating_bias_forces`
`h(q, ν)` — the zero-acceleration, zero-external-force RNEA pass (§4.2). -/
def free_floating_bias_forces (m : MBModel) (d : MBData) : GIdx m.nJ → ℚ :=
  rneaGen m d 0 fun _ => 0

/-- Modelled from the spec: `js.model.free_floating_gravity_forces`
`g(q)` — the RNEA pass with zero velocity (§4.2: "one RNEA pass with zero
velocity (isolates g)"). -/
def free_floating_gravity_forces (m : MBModel) (d : MBData) : GIdx m.nJ → ℚ :=
  rneaGen m (zeroVelData d) 0 fun _ => 0

/-- Forward pass computing, for each link, the matrix that maps the
generalized velocity to the link's velocity-product acceleration
accumulation (the factored form of the zero-gravity RNEA pass). -/
def linkKmat (m : MBModel) (d : MBData) : ℕ → Matrix SIdx (GIdx m.nJ) ℚ :=
  fwdAcc m.par 0
    (fun i Kp => jointX m d i * Kp
      + Matrix.fromColumns 0 (jointCol m.nJ ((crm (linkVel m d i)).mulVec (m.S i)) i))
    m.nJ

/-- Modelled from the spec: `js.model.free_floating_coriolis_matrix`
`C(q, ν)` — the matrix factoring the zero-gravity RNEA pass (§4.2: "a second
[RNEA pass] with zero gravity (isolates Cν)"), one factor of `ν` extracted
per bilinear term. -/
def free_floating_coriolis_matrix (m : MBModel) (d : MBData) :
    Matrix (GIdx m.nJ) (GIdx m.nJ) ℚ :=
  ∑ i ∈ Finset.range m.nLinks,
    (linkJac m d i)ᵀ *
      (crf (linkVel m d i) * m.inertia i * linkJac m d i + m.inertia i * linkKmat m d i)

/-- Modelled from the spec: `js.model.free_floating_mass_matrix` `M(q)` — the
CRBA output (§4.2), characterized as the composite kinetic-energy form
`Σ_L J_Lᵀ I_L J_L` that the backward composite-inertia accumulation
computes. -/
def free_floating_mass_matrix (m : MBModel) (d : MBData) :
    Matrix (GIdx m.nJ) (GIdx m.nJ) ℚ :=
  ∑ i ∈ Finset.range m.nLinks,
    (linkJac m d i)ᵀ * m.inertia i * linkJac m d i

/-- The joint selector matrix `B` of the equations of motion. -/
def Bmat (n : ℕ) : Matrix (GIdx n) (Fin n) ℚ :=
  Matrix.fromRows 0 1

/-- The generalized forces of the external link forces, `Σ_L J_Lᵀ f_L`. -/
def extGenForces (m : MBModel) (d : MBData) (fext : ℕ → V6) : GIdx m.nJ → ℚ :=
  ∑ i ∈ Finset.range m.nLinks, (linkJac m d i)ᵀ.mulVec (fext i)

/-- The exact inverse of a square rational matrix via the adjugate (for an
invertible matrix this is the matrix the spec's pseudo-inverse computes). -/
def minv {k : Type} [Fintype k] [DecidableEq k] (A : Matrix k k ℚ) : Matrix k k ℚ :=
  A.det⁻¹ • A.adjugate

/-- Modelled from the spec: `js.model.forward_dynamics` — the direct
equations-of-motion solve `ν̇ = M⁻¹ (B τ - h + Σ J_Lᵀ f_L)` (§4.2 method 1;
the pseudo-inverse of the spec coincides with the exact inverse on the
invertible mass matrix of a valid model). -/
def forward_dynamics (m : MBModel) (d : MBData) (τ : Fin m.nJ → ℚ) (fext : ℕ → V6) :
    GIdx m.nJ → ℚ :=
  (minv (free_floating_mass_matrix m d)).mulVec
    ((Bmat m.nJ).mulVec τ + extGenForces m d fext - free_floating_bias_forces m d)

/-! ### Articulated Body Algorithm (spec §4.2, method 2) -/

/-- The ABA backward-pass seed of a link: its spatial inertia and its
velocity bias force minus the external force. -/
def abaSeed (m : MBModel) (d : MBData) (fext : ℕ → V6) (i : ℕ) : M6 × V6 :=
  (m.inertia i,
   (crf (linkVel m d i)).mulVec ((m.inertia i).mulVec (linkVel m d i)) - fext i)

/-- The ABA backward-pass contribution of the joint with child link `c`: the
child's articulated inertia and bias force with the joint's degree of freedom
eliminated, transformed to the parent frame. -/
def abaContrib (m : MBModel) (d : MBData) (τ : Fin m.nJ → ℚ) (c : ℕ) (P : M6 × V6) :
    M6 × V6 :=
  ((jointX m d c)ᵀ *
     (P.1 - (m.S c ⬝ᵥ P.1.mulVec (m.S c))⁻¹ •
        Matrix.vecMulVec (P.1.mulVec (m.S c)) (m.S c ᵥ* P.1)) * jointX m d c,
   (jointX m d c)ᵀ.mulVec
     (P.2 + (P.1 - (m.S c ⬝ᵥ P.1.mulVec (m.S c))⁻¹ •
        Matrix.vecMulVec (P.1.mulVec (m.S c)) (m.S c ᵥ* P.1)).mulVec (cTerm m d c)
      + ((m.S c ⬝ᵥ P.1.mulVec (m.S c))⁻¹ * (finCoord τ c - m.S c ⬝ᵥ P.2)) •
          P.1.mulVec (m.S c)))

/-- The articulated-body inertia and bias force of every link: the ABA
backward pass propagating them from the tips to the base. -/
def abaPair (m : MBModel) (d : MBData) (τ : Fin m.nJ → ℚ) (fext : ℕ → V6) :
    ℕ → M6 × V6 :=
  bwdVal m.par m.nJ (abaSeed m d fext) (abaContrib m d τ)

/-- The ABA joint acceleration of the joint with child link `i`, given the
parent's gravity-offset acceleration `ap`. -/
def abaSddOf (m : MBModel) (d : MBData) (τ : Fin m.nJ → ℚ) (fext : ℕ → V6)
    (ap : V6) (i : ℕ) : ℚ :=
  (m.S i ⬝ᵥ (abaPair m d τ fext i).1.mulVec (m.S i))⁻¹ *
    ((finCoord τ i - m.S i ⬝ᵥ (abaPair m d τ fext i).2)
      - m.S i ⬝ᵥ (abaPair m d τ fext i).1.mulVec
          ((jointX m d i).mulVec ap + cTerm m d i))

/-- The ABA final forward pass: gravity-offset link accelerations, the base
solved from its articulated inertia and bias force, each joint composing its
acceleration contribution. -/
def abaAcc (m : MBModel) (d : MBData) (τ : Fin m.nJ → ℚ) (fext : ℕ → V6) : ℕ → V6 :=
  fwdAcc m.par (-(minv (abaPair m d τ fext 0).1).mulVec (abaPair m d τ fext 0).2)
    (fun i ap => ((jointX m d i).mulVec ap + cTerm m d i)
      + abaSddOf m d τ fext ap i • m.S i)
    m.nJ

/-- The ABA joint accelerations `s̈`. -/
def abaSdd (m : MBModel) (d : MBData) (τ : Fin m.nJ → ℚ) (fext : ℕ → V6) (i : ℕ) : ℚ :=
  abaSddOf m d τ fext (abaAcc m d τ fext (m.par i)) i

/-- Modelled from the spec: `js.model.forward_dynamics_aba` — the Articulated
Body Algorithm (§4.2 method 2), returning the base 6D acceleration and the
joint accelerations. -/
def forward_dynamics_aba (m : MBModel) (d : MBData) (τ : Fin m.nJ → ℚ)
    (fext : ℕ → V6) : V6 × (Fin m.nJ → ℚ) :=
  (abaAcc m d τ fext 0 + agBase m d, fun j => abaSdd m d τ fext (j.val + 1))

/-- The generalized acceleration computed by ABA, stacked. -/
def abaNudot (m : MBModel) (d : MBData) (τ : Fin m.nJ → ℚ) (fext : ℕ → V6) :
    GIdx m.nJ → ℚ :=
  Sum.elim (abaAcc m d τ fext 0 + agBase m d) fun j => abaSdd m d τ fext (j.val + 1)

/-- The net spatial force of each link implied by the ABA solution:
`f_i = I^A_i ã_i + p^A_i`. -/
def abaForce (m : MBModel) (d : MBData) (τ : Fin m.nJ → ℚ) (fext : ℕ → V6)
    (i : ℕ) : V6 :=
  (abaPair m d τ fext i).1.mulVec (abaAcc m d τ fext i) + (abaPair m d τ fext i).2

/-! ### Centroidal dynamics (spec §4.2) -/

/-- Total mass of the model. -/
def totalMass (m : MBModel) : ℚ :=
  ∑ i ∈ Finset.range m.nLinks, m.mass i

/-- A pose applied to a point. -/
def Pose.apply (H : Pose) (x : V3) : V3 :=
  H.R.mulVec x + H.p

/-- Modelled from the spec: `js.com.com_position` — the world position of the
centre of mass. -/
def comPosition (m : MBModel) (d : MBData) : V3 :=
  (totalMass m)⁻¹ • ∑ i ∈ Finset.range m.nLinks,
    m.mass i • (fkPose m d i).apply (m.com i)

/-- The pose of the centroidal frame `G`: located at the centre of mass,
world-aligned (spec §4.2). -/
def comPose (m : MBModel) (d : MBData) : Pose :=
  ⟨1, comPosition m d⟩

/-- The 6D force/momentum transform from link `i`'s frame to the centroidal
frame `G`: the transpose of the adjoint of `H_{L_i ← G}`. -/
def gXf (m : MBModel) (d : MBData) (i : ℕ) : M6 :=
  (Ad (((fkPose m d i).inv).comp (comPose m d)))ᵀ

/-- Modelled from the spec: `js.com.centroidal_momentum` — the total 6D
momentum about the centre of mass, expressed in the world-aligned centroidal
frame. -/
def centroidal_momentum (m : MBModel) (d : MBData) : V6 :=
  ∑ i ∈ Finset.range m.nLinks,
    (gXf m d i).mulVec ((m.inertia i).mulVec (linkVel m d i))

/-- Modelled from the spec: `js.com.centroidal_momentum_jacobian` — the
Centroidal Momentum Matrix mapping `ν` to the centroidal 6D momentum. -/
def centroidal_momentum_jacobian (m : MBModel) (d : MBData) :
    Matrix SIdx (GIdx m.nJ) ℚ :=
  ∑ i ∈ Finset.range m.nLinks, gXf m d i * m.inertia i * linkJac m d i

/-- Positive definiteness of a rational matrix. -/
def PosDefQ {k : Type} [Fintype k] (A : Matrix k k ℚ) : Prop :=
  Aᵀ = A ∧ ∀ x, x ≠ 0 → 0 < x ⬝ᵥ A.mulVec x

/-! ## Model reduction (spec §3 lifecycle, §4.2) -/

/-- Validity of a considered-joints selection: child-link indices listed in
ascending (topological) order, all denoting actual joints of the model. -/
def CsValid (m : MBModel) (cs : List ℕ) : Prop :=
  List.Chain' (· < ·) cs ∧ ∀ c ∈ cs, 1 ≤ c ∧ c ≤ m.nJ

instance (m : MBModel) (cs : List ℕ) : Decidable (CsValid m cs) := by
  unfold CsValid
  exact inferInstance

/-- Whether the joint with child link `c` is considered (kept). -/
def keepOf (cs : List ℕ) (c : ℕ) : Bool := cs.contains c

/-- The retained ancestor of each old link: itself if its joint is kept (or
it is the base), else the retained ancestor of its parent. -/
def raOld (m : MBModel) (cs : List ℕ) : ℕ → ℕ :=
  fwdAcc m.par 0 (fun i rp => if keepOf cs i then i else rp) m.nJ

/-- The pose of each old link relative to its retained ancestor, with the
locked joints frozen at the given positions (the spec's "lumping removed
joints at fixed positions"). -/
def lockPose (m : MBModel) (cs : List ℕ) (qLock : ℕ → ℚ) : ℕ → Pose :=
  fwdAcc m.par Pose.one
    (fun i pp => if keepOf cs i then Pose.one else pp.comp (m.jointPose i (qLock i)))
    m.nJ

/-- The new link index of an old (kept or base) link: the number of kept
joints with child-link index not above it. -/
def newIdx (cs : List ℕ) (a : ℕ) : ℕ :=
  (cs.filter fun c => decide (c ≤ a)).length

/-- The old child link of the `r`-th new link (`0` is the base). -/
def oldOf (cs : List ℕ) (r : ℕ) : ℕ :=
  if r = 0 then 0 else cs.getD (r - 1) 0

/-- The set of old links lumped into the new link `r`. -/
def lumpSet (m : MBModel) (cs : List ℕ) (r : ℕ) : Finset ℕ :=
  (Finset.range (m.nJ + 1)).filter fun i => raOld m cs i = oldOf cs r

/-- Modelled from the spec (§3): the reduced kinematic tree — a new immutable
model whose joints are the considered ones, with every removed joint lumped
at its fixed position: composed joint poses, congruence-transformed and
summed spatial inertias, reparented frames.  (The `min` in the parent map is
an inert clamp: for a valid selection it never binds, see
`reduce_par_min_inert`.) -/
def reduceModel (m : MBModel) (cs : List ℕ) (qLock : ℕ → ℚ) : MBModel where
  nJ := cs.length
  par := fun r => min (newIdx cs (raOld m cs (m.par (oldOf cs r)))) (r - 1)
  par_lt := by
    intro i h1 _
    show min (newIdx cs (raOld m cs (m.par (oldOf cs i)))) (i - 1) < i
    have hmin := Nat.min_le_right (newIdx cs (raOld m cs (m.par (oldOf cs i)))) (i - 1)
    omega
  jointPose := fun r q =>
    (lockPose m cs qLock (m.par (oldOf cs r))).comp (m.jointPose (oldOf cs r) q)
  S := fun r => m.S (oldOf cs r)
  inertia := fun r =>
    ∑ i ∈ lumpSet m cs r,
      (Ad (lockPose m cs qLock i).inv)ᵀ * m.inertia i * Ad (lockPose m cs qLock i).inv
  mass := fun r => ∑ i ∈ lumpSet m cs r, m.mass i
  com := fun r =>
    (∑ i ∈ lumpSet m cs r, m.mass i)⁻¹ •
      ∑ i ∈ lumpSet m cs r, m.mass i • (lockPose m cs qLock i).apply (m.com i)
  linkName := fun r => m.linkName (oldOf cs r)
  frames := m.frames.map fun fd =>
    ⟨fd.name, newIdx cs (raOld m cs fd.parent),
     (lockPose m cs qLock fd.parent).comp fd.offset⟩
  gravity := m.gravity

/-- Modelled from the spec: `js.model.reduce` — reducing a model to a subset
of considered joints, locking the others at fixed positions; an invalid
selection is rejected, the original model is never mutated. -/
def reduce (m : MBModel) (cs : List ℕ) (qLock : ℕ → ℚ) : Except String MBModel :=
  if CsValid m cs then Except.ok (reduceModel m cs qLock)
  else Except.error "invalid considered joints"

/-! ## Concrete evaluation instances -/

/-- A model with only the floating base (identity spatial inertia). -/
def baseOnlyModel : MBModel where
  nJ := 0
  par := fun _ => 0
  par_lt := by
    intro i h1 h2
    omega
  jointPose := fun _ _ => Pose.one
  S := fun _ => 0
  inertia := fun _ => 1
  mass := fun _ => 1
  com := fun _ => 0
  linkName := fun i => if i = 0 then "base" else ""
  frames := [⟨"imu", 0, Pose.one⟩]
  gravity := ![0, 0, -10]

/-- A one-joint model: a prismatic joint along x under the floating base. -/
def witModel : MBModel where
  nJ := 1
  par := fun _ => 0
  par_lt := by
    intro i h1 _
    show 0 < i
    omega
  jointPose := fun _ q => ⟨1, ![q, 0, 0]⟩
  S := fun _ => Sum.elim ![1, 0, 0] ![0, 0, 0]
  inertia := fun _ => 1
  mass := fun _ => 1
  com := fun _ => 0
  linkName := fun i => if i = 0 then "base" else if i = 1 then "link1" else ""
  frames := [⟨"ee", 1, Pose.one⟩]
  gravity := ![0, 0, -10]

/-- Data at rest with identity base pose. -/
def restData : MBData where
  basePose := Pose.one
  q := fun _ => 0
  baseVel := 0
  sdot := fun _ => 0

/-- A concrete valid pose: a rotation about z by the 3-4-5 angle, translated. -/
def witPose : Pose :=
  ⟨!![3/5, -4/5, 0; 4/5, 3/5, 0; 0, 0, 1], ![1, 2, 3]⟩

/-- A concrete 6D velocity. -/
def witVel : V6 :=
  Sum.elim ![1, 2, 3] ![4, 5, 6]

/-! # Theorems -/

/-! ## Spatial algebra lemmas -/

theorem sk_mulVec (x : V3) (v : V3) : (sk x).mulVec v = x ×₃ v := by
  funext i
  fin_cases i <;>
    simp [sk, Matrix.mulVec, Matrix.dotProduct, Fin.sum_univ_three, cross_apply,
      Matrix.vecHead, Matrix.vecTail] <;>
    ring

theorem sk_neg (x : V3) : sk (-x) = -(sk x) := by
  ext i j
  fin_cases i <;> fin_cases j <;>
    simp [sk, Matrix.vecHead, Matrix.vecTail]

theorem sk_zero : sk (0 : V3) = 0 := by
  ext i j
  fin_cases i <;> fin_cases j <;>
    simp [sk, Matrix.vecHead, Matrix.vecTail]

theorem SO3.mul_transpose {R : M3} (h : SO3 R) : R * Rᵀ = 1 :=
  Matrix.mul_eq_one_comm.mp h.1

theorem SO3.transpose {R : M3} (h : SO3 R) : SO3 Rᵀ := by
  refine ⟨by simpa using h.mul_transpose, by simpa using h.2⟩

theorem SO3.one : SO3 (1 : M3) := by
  constructor <;> simp

theorem SO3.mulVec_transpose_mulVec {R : M3} (h : SO3 R) (v : V3) :
    R.mulVec (Rᵀ.mulVec v) = v := by
  rw [Matrix.mulVec_mulVec, h.mul_transpose, Matrix.one_mulVec]

theorem SO3.transpose_mulVec_mulVec {R : M3} (h : SO3 R) (v : V3) :
    Rᵀ.mulVec (R.mulVec v) = v := by
  rw [Matrix.mulVec_mulVec, h.1, Matrix.one_mulVec]

theorem SO3.dotProduct_mulVec_mulVec {R : M3} (h : SO3 R) (x y : V3) :
    R.mulVec x ⬝ᵥ R.mulVec y = x ⬝ᵥ y :=
  calc R.mulVec x ⬝ᵥ R.mulVec y
      = ((R.mulVec x) ᵥ* R) ⬝ᵥ y := (Matrix.dotProduct_mulVec _ R y)
    _ = (Rᵀ.mulVec (R.mulVec x)) ⬝ᵥ y := by rw [Matrix.mulVec_transpose]
    _ = x ⬝ᵥ y := by rw [h.transpose_mulVec_mulVec]

/-- Rows `![a, b, c]` multiplied by `Rᵀ` on the right give the rows of their
images under `R`. -/
theorem rows_mulVec_eq (R : M3) (a b c : V3) :
    Matrix.of ![R.mulVec a, R.mulVec b, R.mulVec c] = Matrix.of ![a, b, c] * Rᵀ := by
  ext i j
  fin_cases i <;>
    simp [Matrix.mul_apply, Matrix.mulVec, Matrix.dotProduct, Fin.sum_univ_three,
      Matrix.vecHead, Matrix.vecTail, mul_comm]

/-- A special orthogonal matrix is cross-product equivariant. -/
theorem SO3.mulVec_cross {R : M3} (h : SO3 R) (x y : V3) :
    R.mulVec (x ×₃ y) = (R.mulVec x) ×₃ (R.mulVec y) := by
  have key : ∀ z : V3,
      R.mulVec (x ×₃ y) ⬝ᵥ R.mulVec z = ((R.mulVec x) ×₃ (R.mulVec y)) ⬝ᵥ R.mulVec z := by
    intro z
    have h1 : R.mulVec (x ×₃ y) ⬝ᵥ R.mulVec z = (x ×₃ y) ⬝ᵥ z :=
      h.dotProduct_mulVec_mulVec _ _
    have h3 : z ⬝ᵥ x ×₃ y = Matrix.det ![z, x, y] := triple_product_eq_det z x y
    have h5 : R.mulVec z ⬝ᵥ (R.mulVec x) ×₃ (R.mulVec y)
        = Matrix.det ![R.mulVec z, R.mulVec x, R.mulVec y] :=
      triple_product_eq_det _ _ _
    have h6 : Matrix.of ![R.mulVec z, R.mulVec x, R.mulVec y]
        = Matrix.of ![z, x, y] * Rᵀ := rows_mulVec_eq R z x y
    have h7 : Matrix.det (Matrix.of ![z, x, y] * Rᵀ) = Matrix.det (Matrix.of ![z, x, y]) := by
      rw [Matrix.det_mul, Matrix.det_transpose, h.2, mul_one]
    calc R.mulVec (x ×₃ y) ⬝ᵥ R.mulVec z
        = (x ×₃ y) ⬝ᵥ z := h1
      _ = z ⬝ᵥ x ×₃ y := Matrix.dotProduct_comm _ _
      _ = Matrix.det ![z, x, y] := h3
      _ = Matrix.det (Matrix.of ![z, x, y]) := rfl
      _ = Matrix.det (Matrix.of ![z, x, y] * Rᵀ) := h7.symm
      _ = Matrix.det (Matrix.of ![R.mulVec z, R.mulVec x, R.mulVec y]) := by rw [h6]
      _ = Matrix.det ![R.mulVec z, R.mulVec x, R.mulVec y] := rfl
      _ = R.mulVec z ⬝ᵥ (R.mulVec x) ×₃ (R.mulVec y) := h5.symm
      _ = ((R.mulVec x) ×₃ (R.mulVec y)) ⬝ᵥ R.mulVec z := Matrix.dotProduct_comm _ _
  funext i
  have hkey := key (Rᵀ.mulVec (Pi.single i 1))
  rw [h.mulVec_transpose_mulVec] at hkey
  simpa [Matrix.dotProduct_single] using hkey

/-- Conjugating a skew matrix by a special orthogonal matrix rotates its axis. -/
theorem SO3.sk_conj {R : M3} (h : SO3 R) (x : V3) :
    R * sk x * Rᵀ = sk (R.mulVec x) := by
  have key : ∀ v : V3, (R * sk x * Rᵀ).mulVec v = (sk (R.mulVec x)).mulVec v := by
    intro v
    rw [← Matrix.mulVec_mulVec, ← Matrix.mulVec_mulVec, sk_mulVec, sk_mulVec,
      h.mulVec_cross, h.mulVec_transpose_mulVec]
  ext i j
  have hkey := key (Pi.single j 1)
  rw [Matrix.mulVec_single, Matrix.mulVec_single] at hkey
  simpa using congrFun hkey i

theorem Ad_one : Ad Pose.one = 1 := by
  simp [Ad, Pose.one, sk_zero, Matrix.fromBlocks_one]

/-- The adjoint of the inverse pose is a left inverse of the adjoint. -/
theorem Ad_inv_mul_Ad {H : Pose} (h : H.Valid) : Ad H.inv * Ad H = 1 := by
  have hT : SO3 H.Rᵀ := SO3.transpose h
  rw [Ad, Ad, Pose.inv, Matrix.fromBlocks_multiply]
  have b12 : H.Rᵀ * (sk H.p * H.R) + sk (-(H.Rᵀ.mulVec H.p)) * H.Rᵀ * H.R = 0 := by
    have hconj : H.Rᵀ * sk H.p * (H.Rᵀ)ᵀ = sk (H.Rᵀ.mulVec H.p) := hT.sk_conj H.p
    rw [Matrix.transpose_transpose] at hconj
    have : H.Rᵀ * (sk H.p * H.R) = sk (H.Rᵀ.mulVec H.p) := by
      rw [← Matrix.mul_assoc]; exact hconj
    rw [sk_neg, Matrix.mul_assoc (-(sk (H.Rᵀ.mulVec H.p))), (h : SO3 H.R).1,
      Matrix.mul_one, this]
    simp
  simp only [Matrix.zero_mul, Matrix.mul_zero, add_zero, zero_add]
  rw [(h : SO3 H.R).1, b12]
  exact Matrix.fromBlocks_one

/-- The adjoint of the inverse pose is a right inverse of the adjoint. -/
theorem Ad_mul_Ad_inv {H : Pose} (h : H.Valid) : Ad H * Ad H.inv = 1 := by
  rw [Ad, Ad, Pose.inv, Matrix.fromBlocks_multiply]
  have b12 : H.R * (sk (-(H.Rᵀ.mulVec H.p)) * H.Rᵀ) + sk H.p * H.R * H.Rᵀ = 0 := by
    have hconj : H.R * sk (H.Rᵀ.mulVec H.p) * H.Rᵀ = sk (H.R.mulVec (H.Rᵀ.mulVec H.p)) :=
      (h : SO3 H.R).sk_conj (H.Rᵀ.mulVec H.p)
    rw [(h : SO3 H.R).mulVec_transpose_mulVec] at hconj
    rw [sk_neg, Matrix.neg_mul, Matrix.mul_neg, ← Matrix.mul_assoc, hconj,
      Matrix.mul_assoc (sk H.p), (h : SO3 H.R).mul_transpose, Matrix.mul_one]
    simp
  simp only [Matrix.zero_mul, Matrix.mul_zero, add_zero, zero_add]
  rw [(h : SO3 H.R).mul_transpose, b12]
  exact Matrix.fromBlocks_one

/-! ## Tree-pass lemmas -/

section Passes

variable {V : Type}

theorem fwdAcc_stable (par : ℕ → ℕ) (init : V) (step : ℕ → V → V) :
    ∀ {k l i : ℕ}, i ≤ k → k ≤ l →
      fwdAcc par init step l i = fwdAcc par init step k i := by
  intro k l
  induction l with
  | zero => intro i hik hkl; interval_cases k; rfl
  | succ l ih =>
      intro i hik hkl
      rcases Nat.lt_or_ge k (l + 1) with hlt | hge
      · have hkl' : k ≤ l := Nat.lt_succ_iff.mp hlt
        have hil : i ≠ l + 1 := by omega
        calc fwdAcc par init step (l + 1) i
            = fwdAcc par init step l i := by rw [fwdAcc]; simp [hil]
          _ = fwdAcc par init step k i := ih hik hkl'
      · have : k = l + 1 := le_antisymm hkl hge
        rw [this]

theorem fwdAcc_zero (par : ℕ → ℕ) (init : V) (step : ℕ → V → V) (k : ℕ) :
    fwdAcc par init step k 0 = init := by
  have := fwdAcc_stable par init step (k := 0) (l := k) (i := 0) le_rfl (Nat.zero_le k)
  rw [this]
  rfl

theorem fwdAcc_succ (par : ℕ → ℕ) (init : V) (step : ℕ → V → V) {k i : ℕ}
    (hik : i + 1 ≤ k) (hpar : par (i + 1) ≤ i) :
    fwdAcc par init step k (i + 1) = step (i + 1) (fwdAcc par init step k (par (i + 1))) := by
  have h1 : fwdAcc par init step k (i + 1) = fwdAcc par init step (i + 1) (i + 1) :=
    fwdAcc_stable par init step le_rfl hik
  have h2 : fwdAcc par init step (i + 1) (i + 1)
      = step (i + 1) (fwdAcc par init step i (par (i + 1))) := by
    rw [fwdAcc]; simp
  have h3 : fwdAcc par init step k (par (i + 1)) = fwdAcc par init step i (par (i + 1)) :=
    fwdAcc_stable par init step hpar (le_trans (Nat.le_succ i) hik)
  rw [h1, h2, h3]

variable [AddCommMonoid V]

theorem bwdAcc_stable (par : ℕ → ℕ) (n : ℕ) (w : ℕ → V) (contrib : ℕ → V → V)
    (hpar : ∀ c, 1 ≤ c → c ≤ n → par c < c) :
    ∀ {k l i : ℕ}, n - i ≤ k → k ≤ l →
      bwdAcc par n w contrib l i = bwdAcc par n w contrib k i := by
  intro k l
  induction l with
  | zero => intro i hik hkl; interval_cases k; rfl
  | succ l ih =>
      intro i hik hkl
      rcases Nat.lt_or_ge k (l + 1) with hlt | hge
      · have hkl' : k ≤ l := Nat.lt_succ_iff.mp hlt
        have hni : n - i ≤ l := le_trans hik hkl'
        have hne : ¬(1 ≤ n - l ∧ i = par (n - l)) := by
          rintro ⟨h1, h2⟩
          have hc1 : n - l ≤ n := Nat.sub_le n l
          have hplt : par (n - l) < n - l := hpar _ h1 hc1
          have : n - l ≤ i := by omega
          omega
        calc bwdAcc par n w contrib (l + 1) i
            = bwdAcc par n w contrib l i := by rw [bwdAcc]; simp [hne]
          _ = bwdAcc par n w contrib k i := ih hik hkl'
      · have : k = l + 1 := le_antisymm hkl hge
        rw [this]

/-- The completed backward pass satisfies the child-before-parent recurrence:
each link's final value is its own seed plus the mapped final values of all
its children. -/
theorem bwdVal_eq (par : ℕ → ℕ) (n : ℕ) (w : ℕ → V) (contrib : ℕ → V → V)
    (hpar : ∀ c, 1 ≤ c → c ≤ n → par c < c) (i : ℕ) :
    bwdVal par n w contrib i
      = w i + ∑ c ∈ childSet par n i, contrib c (bwdVal par n w contrib c) := by
  have inv : ∀ k, k ≤ n → ∀ i,
      bwdAcc par n w contrib k i
        = w i + ∑ c ∈ (Finset.Ioc (n - k) n).filter (fun c => par c = i),
            contrib c (bwdVal par n w contrib c) := by
    intro k
    induction k with
    | zero =>
        intro _ i
        have : (Finset.Ioc (n - 0) n).filter (fun c => par c = i) = ∅ := by
          simp [Finset.Ioc_self]
        rw [bwdAcc, this, Finset.sum_empty, add_zero]
    | succ k ih =>
        intro hk i
        have hkn : k ≤ n := le_trans (Nat.le_succ k) hk
        set m := n - k with hm
        have hm1 : 1 ≤ m := by omega
        have hmn : m ≤ n := Nat.sub_le n k
        have hIoc : Finset.Ioc (n - (k + 1)) n = insert m (Finset.Ioc m n) := by
          ext c
          simp only [Finset.mem_Ioc, Finset.mem_insert]
          omega
        have hmnot : m ∉ (Finset.Ioc m n).filter (fun c => par c = i) := by
          simp [Finset.mem_filter]
        rw [bwdAcc]
        by_cases hcase : i = par m
        · have hcond : 1 ≤ n - k ∧ i = par (n - k) := ⟨hm1, by rw [← hm]; exact hcase⟩
          rw [if_pos hcond, ih hkn i, hIoc, Finset.filter_insert, if_pos hcase.symm,
            Finset.sum_insert hmnot]
          have hfinal : bwdAcc par n w contrib k m = bwdVal par n w contrib m := by
            have := bwdAcc_stable par n w contrib hpar (k := k) (l := n)
              (i := m) (by omega) hkn
            rw [bwdVal, this]
          rw [hfinal]
          abel
        · have hcond : ¬(1 ≤ n - k ∧ i = par (n - k)) := by
            rintro ⟨_, h2⟩; exact hcase (by rw [← hm] at h2; exact h2)
          rw [if_neg hcond, ih hkn i, hIoc, Finset.filter_insert,
            if_neg (fun h => hcase h.symm)]
  calc bwdVal par n w contrib i
      = w i + ∑ c ∈ (Finset.Ioc (n - n) n).filter (fun c => par c = i),
          contrib c (bwdVal par n w contrib c) := inv n le_rfl i
    _ = w i + ∑ c ∈ childSet par n i, contrib c (bwdVal par n w contrib c) := by
        rw [Nat.sub_self]; rfl

/-- Summing any function over all children sets recovers the sum over all
joints: the child sets partition the joints. -/
theorem sum_childSet (par : ℕ → ℕ) (n : ℕ)
    (hpar : ∀ c, 1 ≤ c → c ≤ n → par c < c) (g : ℕ → V) :
    ∑ i ∈ Finset.range (n + 1), ∑ c ∈ childSet par n i, g c
      = ∑ c ∈ Finset.Ioc 0 n, g c := by
  have hmaps : ∀ c ∈ Finset.Ioc 0 n, par c ∈ Finset.range (n + 1) := by
    intro c hc
    rw [Finset.mem_Ioc] at hc
    have := hpar c hc.1 hc.2
    rw [Finset.mem_range]
    omega
  exact Finset.sum_fiberwise_of_maps_to hmaps g

end Passes

/-! ## Kinematics lemmas -/

theorem jointCol_mulVec {n : ℕ} (v : V6) {i : ℕ} (hi : 1 ≤ i) (hn : i ≤ n)
    (y : Fin n → ℚ) :
    (jointCol n v i).mulVec y = y ⟨i - 1, by omega⟩ • v := by
  funext r
  rw [Matrix.mulVec, Matrix.dotProduct]
  rw [Finset.sum_eq_single (⟨i - 1, by omega⟩ : Fin n)]
  · have hcond : ((⟨i - 1, by omega⟩ : Fin n) : ℕ) + 1 = i := by
      simp only [Fin.val_mk]; omega
    simp [jointCol, hcond, mul_comm]
  · intro j _ hj
    have : (j : ℕ) + 1 ≠ i := by
      intro hcontra
      apply hj
      apply Fin.ext
      simp
      omega
    simp [jointCol, this]
  · intro hmem
    exact absurd (Finset.mem_univ _) hmem

theorem linkVel_zero (m : MBModel) (d : MBData) : linkVel m d 0 = d.baseVel :=
  fwdAcc_zero _ _ _ _

theorem linkVel_succ (m : MBModel) (d : MBData) {i : ℕ} (hi : i + 1 ≤ m.nJ) :
    linkVel m d (i + 1)
      = (jointX m d (i + 1)).mulVec (linkVel m d (m.par (i + 1)))
        + d.sdot (i + 1) • m.S (i + 1) :=
  fwdAcc_succ _ _ _ hi (by have := m.par_lt (i + 1) (by omega) hi; omega)

theorem linkJac_zero (m : MBModel) (d : MBData) :
    linkJac m d 0 = Matrix.fromColumns 1 0 :=
  fwdAcc_zero _ _ _ _

theorem linkJac_succ (m : MBModel) (d : MBData) {i : ℕ} (hi : i + 1 ≤ m.nJ) :
    linkJac m d (i + 1)
      = jointX m d (i + 1) * linkJac m d (m.par (i + 1))
        + Matrix.fromColumns 0 (jointCol m.nJ (m.S (i + 1)) (i + 1)) :=
  fwdAcc_succ _ _ _ hi (by have := m.par_lt (i + 1) (by omega) hi; omega)

theorem fkPose_zero (m : MBModel) (d : MBData) : fkPose m d 0 = d.basePose :=
  fwdAcc_zero _ _ _ _

theorem fkPose_succ (m : MBModel) (d : MBData) {i : ℕ} (hi : i + 1 ≤ m.nJ) :
    fkPose m d (i + 1)
      = (fkPose m d (m.par (i + 1))).comp (m.jointPose (i + 1) (d.q (i + 1))) :=
  fwdAcc_succ _ _ _ hi (by have := m.par_lt (i + 1) (by omega) hi; omega)

/-- The spec's defining property of the free-floating Jacobian (§4.1): the
body-fixed link velocity is the body-fixed Jacobian applied to the
generalized velocity. -/
theorem linkVel_eq_jac_mulVec (m : MBModel) (d : MBData) :
    ∀ i, i ≤ m.nJ → linkVel m d i = (linkJac m d i).mulVec (genVel m d) := by
  intro i
  induction i using Nat.strong_induction_on with
  | _ i ih =>
      match i with
      | 0 =>
          intro _
          rw [linkVel_zero, linkJac_zero]
          rw [show genVel m d = Sum.elim d.baseVel (fun j => d.sdot (j.val + 1)) from rfl]
          rw [Matrix.fromColumns_mulVec_sum_elim]
          simp
      | i + 1 =>
          intro hi
          have hpar_lt : m.par (i + 1) < i + 1 := m.par_lt (i + 1) (by omega) hi
          have hih := ih (m.par (i + 1)) hpar_lt (by omega)
          rw [linkVel_succ m d hi, linkJac_succ m d hi, hih]
          rw [Matrix.add_mulVec, ← Matrix.mulVec_mulVec]
          congr 1
          rw [show genVel m d = Sum.elim d.baseVel (fun j => d.sdot (j.val + 1)) from rfl]
          rw [Matrix.fromColumns_mulVec_sum_elim]
          rw [Matrix.zero_mulVec, zero_add]
          rw [jointCol_mulVec (m.S (i + 1)) (by omega) hi]
          simp

theorem reprXinv_mul_reprX (r : VelRepr) {H : Pose} (h : H.Valid) :
    reprXinv r H * reprX r H = 1 := by
  cases r with
  | Body => simp [reprX, reprXinv]
  | Mixed => exact Ad_inv_mul_Ad (H := ⟨H.R, 0⟩) h
  | Inertial => exact Ad_inv_mul_Ad h

/-- The conversion block-diagonal applied to the represented generalized
velocity recovers the body-fixed generalized velocity. -/
theorem conv_genVelRepr (m : MBModel) (d : MBData) (r : VelRepr)
    (hB : d.basePose.Valid) :
    (Matrix.fromBlocks (reprXinv r d.basePose) 0 0 1).mulVec (genVelRepr m d r)
      = genVel m d := by
  rw [show genVelRepr m d r
      = Sum.elim ((reprX r d.basePose).mulVec d.baseVel)
          (fun j => d.sdot (j.val + 1)) from rfl]
  rw [Matrix.fromBlocks_mulVec]
  simp only [Sum.elim_comp_inl, Sum.elim_comp_inr, Matrix.zero_mulVec, add_zero,
    zero_add, Matrix.one_mulVec, Matrix.mulVec_mulVec, Matrix.zero_mul,
    Matrix.one_mul, reprXinv_mul_reprX r hB]
  rfl

/-- The link Jacobian in any input/output representation pair maps the
represented generalized velocity to the represented link velocity. -/
theorem linkJacRepr_mulVec (m : MBModel) (d : MBData) (rin rout : VelRepr)
    {i : ℕ} (hi : i ≤ m.nJ) (hB : d.basePose.Valid) :
    (linkJacRepr m d rin rout i).mulVec (genVelRepr m d rin)
      = linkVelRepr m d rout i := by
  rw [linkJacRepr, ← Matrix.mulVec_mulVec, conv_genVelRepr m d rin hB,
    ← Matrix.mulVec_mulVec, ← linkVel_eq_jac_mulVec m d i hi]
  rfl

/-- The frame Jacobian in any input/output representation pair maps the
represented generalized velocity to the represented frame velocity. -/
theorem frameJacRepr_mulVec (m : MBModel) (d : MBData) (rin rout : VelRepr)
    (fd : FrameDef) (hp : fd.parent ≤ m.nJ) (hB : d.basePose.Valid) :
    (frameJacRepr m d rin rout fd).mulVec (genVelRepr m d rin)
      = frameVelRepr m d rout fd := by
  rw [frameJacRepr, ← Matrix.mulVec_mulVec, conv_genVelRepr m d rin hB,
    ← Matrix.mulVec_mulVec, ← Matrix.mulVec_mulVec,
    ← linkVel_eq_jac_mulVec m d fd.parent hp]
  rfl

/-! ## Linear-algebra helpers -/

theorem finsetSum_mulVec {ι k l : Type} [DecidableEq ι] [Fintype l] (s : Finset ι)
    (A : ι → Matrix k l ℚ) (x : l → ℚ) :
    (∑ i ∈ s, A i).mulVec x = ∑ i ∈ s, (A i).mulVec x := by
  induction s using Finset.induction_on with
  | empty => simp [Matrix.zero_mulVec]
  | insert hni ih =>
      rw [Finset.sum_insert hni, Finset.sum_insert hni, Matrix.add_mulVec, ih]

theorem finsetSum_dotProduct {ι k : Type} [DecidableEq ι] [Fintype k] (s : Finset ι)
    (v : ι → k → ℚ) (x : k → ℚ) :
    (∑ i ∈ s, v i) ⬝ᵥ x = ∑ i ∈ s, v i ⬝ᵥ x := by
  induction s using Finset.induction_on with
  | empty => simp
  | insert hni ih =>
      rw [Finset.sum_insert hni, Finset.sum_insert hni, Matrix.add_dotProduct, ih]

theorem dotProduct_finsetSum {ι k : Type} [DecidableEq ι] [Fintype k] (s : Finset ι)
    (v : ι → k → ℚ) (x : k → ℚ) :
    x ⬝ᵥ (∑ i ∈ s, v i) = ∑ i ∈ s, x ⬝ᵥ v i := by
  induction s using Finset.induction_on with
  | empty => simp
  | insert hni ih =>
      rw [Finset.sum_insert hni, Finset.sum_insert hni, Matrix.dotProduct_add, ih]

theorem dotProduct_all_eq {k : Type} [Fintype k] [DecidableEq k] {a b : k → ℚ}
    (h : ∀ u : k → ℚ, a ⬝ᵥ u = b ⬝ᵥ u) : a = b := by
  funext g
  have := h (Pi.single g 1)
  rwa [Matrix.dotProduct_single, Matrix.dotProduct_single, mul_one, mul_one] at this

theorem transpose_mulVec_dot {k l : Type} [Fintype k] [Fintype l]
    (A : Matrix k l ℚ) (x : k → ℚ) (y : l → ℚ) :
    (Aᵀ.mulVec x) ⬝ᵥ y = x ⬝ᵥ (A.mulVec y) := by
  rw [Matrix.mulVec_transpose, ← Matrix.dotProduct_mulVec]

theorem vecMulVec_mulVec {k l : Type} [Fintype l] (u : k → ℚ) (w : l → ℚ) (z : l → ℚ) :
    (Matrix.vecMulVec u w).mulVec z = (w ⬝ᵥ z) • u := by
  funext r
  rw [Matrix.mulVec, Matrix.dotProduct]
  simp only [Matrix.vecMulVec_apply, Pi.smul_apply, smul_eq_mul, Matrix.dotProduct]
  rw [Finset.sum_mul]
  exact Finset.sum_congr rfl fun j _ => by ring

theorem minv_mul {k : Type} [Fintype k] [DecidableEq k] {A : Matrix k k ℚ}
    (h : A.det ≠ 0) : minv A * A = 1 := by
  rw [minv, Matrix.smul_mul, Matrix.adjugate_mul, smul_smul, inv_mul_cancel₀ h, one_smul]

theorem mul_minv {k : Type} [Fintype k] [DecidableEq k] {A : Matrix k k ℚ}
    (h : A.det ≠ 0) : A * minv A = 1 := by
  rw [minv, Matrix.mul_smul, Matrix.mul_adjugate, smul_smul, inv_mul_cancel₀ h, one_smul]

theorem minv_mulVec_cancel {k : Type} [Fintype k] [DecidableEq k] {A : Matrix k k ℚ}
    (h : A.det ≠ 0) (x : k → ℚ) : (minv A).mulVec (A.mulVec x) = x := by
  rw [Matrix.mulVec_mulVec, minv_mul h, Matrix.one_mulVec]

theorem mulVec_minv_cancel {k : Type} [Fintype k] [DecidableEq k] {A : Matrix k k ℚ}
    (h : A.det ≠ 0) (x : k → ℚ) : A.mulVec ((minv A).mulVec x) = x := by
  rw [Matrix.mulVec_mulVec, mul_minv h, Matrix.one_mulVec]

theorem elim_add_elim {k l : Type} (a c : k → ℚ) (b d : l → ℚ) :
    Sum.elim a b + Sum.elim c d = Sum.elim (a + c) (b + d) := by
  funext g
  cases g <;> simp

theorem range_succ_insert (n : ℕ) :
    Finset.range (n + 1) = insert 0 (Finset.Ioc 0 n) := by
  ext c
  simp only [Finset.mem_range, Finset.mem_insert, Finset.mem_Ioc]
  omega

theorem zero_not_mem_Ioc (n : ℕ) : 0 ∉ Finset.Ioc 0 n := by
  simp

theorem sum_Ioc_eq_sum_fin {V : Type} [AddCommMonoid V] (n : ℕ) (g : ℕ → V) :
    ∑ c ∈ Finset.Ioc 0 n, g c = ∑ j : Fin n, g (j.val + 1) := by
  have h1 : Finset.Ioc 0 n = Finset.Ico 1 (n + 1) := by
    ext c
    simp only [Finset.mem_Ioc, Finset.mem_Ico]
    omega
  rw [h1, Finset.sum_Ico_eq_sum_range]
  rw [Fin.sum_univ_eq_sum_range (fun j => g (j + 1))]
  simp only [Nat.add_sub_cancel]
  exact Finset.sum_congr rfl fun j _ => by rw [Nat.add_comm 1 j]

/-! ## Generalized coordinate bookkeeping -/

theorem jointCoord_succ {n : ℕ} (x : GIdx n → ℚ) {j : ℕ} (h : j < n) :
    jointCoord x (j + 1) = x (Sum.inr ⟨j, h⟩) := by
  unfold jointCoord
  simp only [Nat.add_sub_cancel]
  rw [dif_pos h]

theorem jointCoord_zero_fun {n : ℕ} (i : ℕ) : jointCoord (0 : GIdx n → ℚ) i = 0 := by
  unfold jointCoord
  split <;> simp

theorem jointCoord_genVel (m : MBModel) (d : MBData) {i : ℕ} (h1 : 1 ≤ i)
    (h2 : i ≤ m.nJ) : jointCoord (genVel m d) i = d.sdot i := by
  unfold jointCoord
  rw [dif_pos (by omega)]
  show d.sdot (i - 1 + 1) = d.sdot i
  congr 1
  omega

theorem finCoord_succ {n : ℕ} (x : Fin n → ℚ) {j : ℕ} (h : j < n) :
    finCoord x (j + 1) = x ⟨j, h⟩ := by
  unfold finCoord
  simp only [Nat.add_sub_cancel]
  rw [dif_pos h]

/-- Applying a link Jacobian at a joint's child link unfolds one step of the
forward recursion. -/
theorem linkJac_mulVec_step (m : MBModel) (d : MBData) {c : ℕ} (h1 : 1 ≤ c)
    (h2 : c ≤ m.nJ) (u : GIdx m.nJ → ℚ) :
    (linkJac m d c).mulVec u
      = (jointX m d c).mulVec ((linkJac m d (m.par c)).mulVec u)
        + jointCoord u c • m.S c := by
  match c, h1 with
  | c' + 1, _ =>
      rw [linkJac_succ m d h2, Matrix.add_mulVec, ← Matrix.mulVec_mulVec]
      congr 1
      rw [show u = Sum.elim (u ∘ Sum.inl) (u ∘ Sum.inr) from (Sum.elim_comp_inl_inr u).symm]
      rw [Matrix.fromColumns_mulVec_sum_elim, Matrix.zero_mulVec, zero_add,
        jointCol_mulVec (m.S (c' + 1)) (by omega) h2]
      rw [jointCoord_succ _ (by omega)]
      rfl

theorem linkJac_zero_mulVec (m : MBModel) (d : MBData) (u : GIdx m.nJ → ℚ) :
    (linkJac m d 0).mulVec u = u ∘ Sum.inl := by
  rw [linkJac_zero]
  rw [show u = Sum.elim (u ∘ Sum.inl) (u ∘ Sum.inr) from (Sum.elim_comp_inl_inr u).symm]
  rw [Matrix.fromColumns_mulVec_sum_elim, Matrix.zero_mulVec, add_zero, Matrix.one_mulVec]
  rfl

theorem linkJac_zero_transpose_mulVec (m : MBModel) (d : MBData) (u : V6) :
    (linkJac m d 0)ᵀ.mulVec u = Sum.elim u 0 := by
  rw [linkJac_zero, Matrix.transpose_fromColumns, Matrix.fromRows_mulVec]
  simp [Matrix.zero_mulVec, Matrix.one_mulVec]

theorem Bmat_mulVec (n : ℕ) (τ : Fin n → ℚ) :
    (Bmat n).mulVec τ = Sum.elim (0 : V6) τ := by
  rw [Bmat, Matrix.fromRows_mulVec]
  simp [Matrix.zero_mulVec, Matrix.one_mulVec]

/-! ## RNEA pass unfolding -/

theorem linkAcc_zero (m : MBModel) (d : MBData) (nudot : GIdx m.nJ → ℚ) :
    linkAcc m d nudot 0 = (nudot ∘ Sum.inl) - agBase m d :=
  fwdAcc_zero _ _ _ _

theorem linkAcc_succ (m : MBModel) (d : MBData) (nudot : GIdx m.nJ → ℚ) {i : ℕ}
    (hi : i + 1 ≤ m.nJ) :
    linkAcc m d nudot (i + 1)
      = (jointX m d (i + 1)).mulVec (linkAcc m d nudot (m.par (i + 1)))
        + jointCoord nudot (i + 1) • m.S (i + 1) + cTerm m d (i + 1) :=
  fwdAcc_succ _ _ _ hi (by have := m.par_lt (i + 1) (by omega) hi; omega)

theorem gravAcc_zero (m : MBModel) (d : MBData) : gravAcc m d 0 = -(agBase m d) :=
  fwdAcc_zero _ _ _ _

theorem gravAcc_succ (m : MBModel) (d : MBData) {i : ℕ} (hi : i + 1 ≤ m.nJ) :
    gravAcc m d (i + 1) = (jointX m d (i + 1)).mulVec (gravAcc m d (m.par (i + 1))) :=
  fwdAcc_succ _ _ _ hi (by have := m.par_lt (i + 1) (by omega) hi; omega)

theorem linkKmat_zero (m : MBModel) (d : MBData) : linkKmat m d 0 = 0 :=
  fwdAcc_zero _ _ _ _

theorem linkKmat_succ (m : MBModel) (d : MBData) {i : ℕ} (hi : i + 1 ≤ m.nJ) :
    linkKmat m d (i + 1)
      = jointX m d (i + 1) * linkKmat m d (m.par (i + 1))
        + Matrix.fromColumns 0
            (jointCol m.nJ ((crm (linkVel m d (i + 1))).mulVec (m.S (i + 1))) (i + 1)) :=
  fwdAcc_succ _ _ _ hi (by have := m.par_lt (i + 1) (by omega) hi; omega)

theorem rneaForce_rec (m : MBModel) (d : MBData) (nudot : GIdx m.nJ → ℚ)
    (fext : ℕ → V6) (i : ℕ) :
    rneaForce m d nudot fext i
      = rneaSeed m d nudot fext i
        + ∑ c ∈ childSet m.par m.nJ i,
            (jointX m d c)ᵀ.mulVec (rneaForce m d nudot fext c) :=
  bwdVal_eq _ _ _ _ m.par_lt i

/-- The spec's linearity of the RNEA forward pass: the gravity-offset link
acceleration is the Jacobian applied to `ν̇` plus the zero-acceleration pass. -/
theorem linkAcc_affine (m : MBModel) (d : MBData) (nudot : GIdx m.nJ → ℚ) :
    ∀ i, i ≤ m.nJ →
      linkAcc m d nudot i = (linkJac m d i).mulVec nudot + linkAcc m d 0 i := by
  intro i
  induction i using Nat.strong_induction_on with
  | _ i ih =>
      match i with
      | 0 =>
          intro _
          rw [linkAcc_zero, linkAcc_zero, linkJac_zero_mulVec]
          funext r
          simp [Pi.sub_apply]
          ring
      | i + 1 =>
          intro hi
          have hpar_lt : m.par (i + 1) < i + 1 := m.par_lt (i + 1) (by omega) hi
          have hih := ih (m.par (i + 1)) hpar_lt (by omega)
          rw [linkAcc_succ m d nudot hi, linkAcc_succ m d 0 hi, hih,
            linkJac_mulVec_step m d (by omega) hi, jointCoord_zero_fun, zero_smul,
            add_zero, Matrix.mulVec_add]
          abel

/-! ## The RNEA adjoint identity -/

/-- The virtual-work form of the RNEA backward pass: the generalized force
output paired with any test vector equals the per-link seeds paired with the
corresponding virtual link velocities. -/
theorem rneaGen_dot (m : MBModel) (d : MBData) (nudot : GIdx m.nJ → ℚ)
    (fext : ℕ → V6) (u : GIdx m.nJ → ℚ) :
    rneaGen m d nudot fext ⬝ᵥ u
      = ∑ i ∈ Finset.range m.nLinks,
          rneaSeed m d nudot fext i ⬝ᵥ ((linkJac m d i).mulVec u) := by
  have hδstep : ∀ c, 1 ≤ c → c ≤ m.nJ →
      (jointX m d c).mulVec ((linkJac m d (m.par c)).mulVec u)
        = (linkJac m d c).mulVec u - jointCoord u c • m.S c := by
    intro c h1 h2
    rw [linkJac_mulVec_step m d h1 h2 u]
    abel
  have step2 : ∑ i ∈ Finset.range (m.nJ + 1),
        rneaForce m d nudot fext i ⬝ᵥ ((linkJac m d i).mulVec u)
      = ∑ i ∈ Finset.range (m.nJ + 1),
          rneaSeed m d nudot fext i ⬝ᵥ ((linkJac m d i).mulVec u)
        + ∑ i ∈ Finset.range (m.nJ + 1), ∑ c ∈ childSet m.par m.nJ i,
            ((jointX m d c)ᵀ.mulVec (rneaForce m d nudot fext c))
              ⬝ᵥ ((linkJac m d i).mulVec u) := by
    rw [← Finset.sum_add_distrib]
    refine Finset.sum_congr rfl fun i _ => ?_
    rw [rneaForce_rec, Matrix.add_dotProduct, finsetSum_dotProduct]
  have step3 : ∑ i ∈ Finset.range (m.nJ + 1), ∑ c ∈ childSet m.par m.nJ i,
        ((jointX m d c)ᵀ.mulVec (rneaForce m d nudot fext c))
          ⬝ᵥ ((linkJac m d i).mulVec u)
      = ∑ c ∈ Finset.Ioc 0 m.nJ,
          (rneaForce m d nudot fext c ⬝ᵥ ((linkJac m d c).mulVec u)
            - jointCoord u c * (m.S c ⬝ᵥ rneaForce m d nudot fext c)) := by
    rw [← sum_childSet m.par m.nJ m.par_lt]
    refine Finset.sum_congr rfl fun i _ => Finset.sum_congr rfl fun c hc => ?_
    have hc' : c ∈ Finset.Ioc 0 m.nJ ∧ m.par c = i := by
      simpa [childSet, Finset.mem_filter] using hc
    have hc1 : 1 ≤ c := (Finset.mem_Ioc.mp hc'.1).1
    have hc2 : c ≤ m.nJ := (Finset.mem_Ioc.mp hc'.1).2
    rw [transpose_mulVec_dot, ← hc'.2, hδstep c hc1 hc2, Matrix.dotProduct_sub,
      Matrix.dotProduct_smul]
    rw [smul_eq_mul, Matrix.dotProduct_comm (rneaForce m d nudot fext c) (m.S c)]
  have step5 : ∑ i ∈ Finset.range (m.nJ + 1),
        rneaForce m d nudot fext i ⬝ᵥ ((linkJac m d i).mulVec u)
      = rneaForce m d nudot fext 0 ⬝ᵥ ((linkJac m d 0).mulVec u)
        + ∑ c ∈ Finset.Ioc 0 m.nJ,
            rneaForce m d nudot fext c ⬝ᵥ ((linkJac m d c).mulVec u) := by
    rw [range_succ_insert, Finset.sum_insert (zero_not_mem_Ioc m.nJ)]
  have key : rneaForce m d nudot fext 0 ⬝ᵥ ((linkJac m d 0).mulVec u)
      + ∑ c ∈ Finset.Ioc 0 m.nJ,
          jointCoord u c * (m.S c ⬝ᵥ rneaForce m d nudot fext c)
      = ∑ i ∈ Finset.range (m.nJ + 1),
          rneaSeed m d nudot fext i ⬝ᵥ ((linkJac m d i).mulVec u) := by
    have hstep := step2
    rw [step3, step5, Finset.sum_sub_distrib] at hstep
    linarith [hstep]
  have lhs_eq : rneaGen m d nudot fext ⬝ᵥ u
      = rneaForce m d nudot fext 0 ⬝ᵥ ((linkJac m d 0).mulVec u)
        + ∑ c ∈ Finset.Ioc 0 m.nJ,
            jointCoord u c * (m.S c ⬝ᵥ rneaForce m d nudot fext c) := by
    rw [linkJac_zero_mulVec]
    have h0 : rneaGen m d nudot fext ⬝ᵥ u
        = (∑ r : SIdx, rneaForce m d nudot fext 0 r * u (Sum.inl r))
          + ∑ j : Fin m.nJ,
              (m.S (j.val + 1) ⬝ᵥ rneaForce m d nudot fext (j.val + 1)) * u (Sum.inr j) := by
      rw [show (rneaGen m d nudot fext ⬝ᵥ u)
          = ∑ g : GIdx m.nJ, rneaGen m d nudot fext g * u g from rfl]
      rw [Fintype.sum_sum_type]
      rfl
    rw [h0]
    congr 1
    rw [sum_Ioc_eq_sum_fin]
    refine Finset.sum_congr rfl fun j _ => ?_
    rw [jointCoord_succ u j.isLt]
    rw [show (⟨j.val, j.isLt⟩ : Fin m.nJ) = j from rfl]
    ring
  rw [lhs_eq, key]
  rfl

/-- The RNEA generalized force as the Jacobian-transpose sum of the per-link
seeds. -/
theorem rneaGen_eq_sum (m : MBModel) (d : MBData) (nudot : GIdx m.nJ → ℚ)
    (fext : ℕ → V6) :
    rneaGen m d nudot fext
      = ∑ i ∈ Finset.range m.nLinks,
          (linkJac m d i)ᵀ.mulVec (rneaSeed m d nudot fext i) := by
  refine dotProduct_all_eq fun u => ?_
  rw [rneaGen_dot, finsetSum_dotProduct]
  exact Finset.sum_congr rfl fun i _ => (transpose_mulVec_dot _ _ _).symm

/-! ## RNEA as an affine function of the generalized acceleration -/

theorem rneaSeed_affine (m : MBModel) (d : MBData) (nudot : GIdx m.nJ → ℚ)
    (fext : ℕ → V6) {i : ℕ} (hile : i ≤ m.nJ) :
    rneaSeed m d nudot fext i
      = (m.inertia i).mulVec ((linkJac m d i).mulVec nudot)
        + rneaSeed m d 0 (fun _ => 0) i - fext i := by
  unfold rneaSeed
  rw [linkAcc_affine m d nudot i hile, Matrix.mulVec_add]
  funext r
  simp only [Pi.add_apply, Pi.sub_apply, Pi.zero_apply]
  ring

/-- The spec's equations of motion recovered from RNEA (§4.2): the RNEA
generalized force is `M ν̇ + h - Σ J_Lᵀ f_L`. -/
theorem rneaGen_affine (m : MBModel) (d : MBData) (nudot : GIdx m.nJ → ℚ)
    (fext : ℕ → V6) :
    rneaGen m d nudot fext
      = (free_floating_mass_matrix m d).mulVec nudot
        + free_floating_bias_forces m d - extGenForces m d fext := by
  rw [rneaGen_eq_sum, free_floating_bias_forces, rneaGen_eq_sum,
    free_floating_mass_matrix, extGenForces, finsetSum_mulVec,
    ← Finset.sum_add_distrib, ← Finset.sum_sub_distrib]
  refine Finset.sum_congr rfl fun i hi => ?_
  have hile : i ≤ m.nJ := by
    have := Finset.mem_range.mp hi
    unfold MBModel.nLinks at this
    omega
  rw [rneaSeed_affine m d nudot fext hile, Matrix.mulVec_sub, Matrix.mulVec_add,
    Matrix.mulVec_mulVec, Matrix.mulVec_mulVec]

/-! ## Zero-velocity and gravity decomposition lemmas -/

theorem jointX_zeroVel (m : MBModel) (d : MBData) :
    jointX m (zeroVelData d) = jointX m d := rfl

theorem agBase_zeroVel (m : MBModel) (d : MBData) :
    agBase m (zeroVelData d) = agBase m d := rfl

theorem linkJac_zeroVel (m : MBModel) (d : MBData) :
    linkJac m (zeroVelData d) = linkJac m d := rfl

theorem linkVel_zeroVel (m : MBModel) (d : MBData) :
    ∀ i, i ≤ m.nJ → linkVel m (zeroVelData d) i = 0 := by
  intro i
  induction i using Nat.strong_induction_on with
  | _ i ih =>
      match i with
      | 0 =>
          intro _
          rw [linkVel_zero]
          rfl
      | i + 1 =>
          intro hi
          have hpar_lt : m.par (i + 1) < i + 1 := m.par_lt (i + 1) (by omega) hi
          rw [linkVel_succ m (zeroVelData d) hi, ih (m.par (i + 1)) hpar_lt (by omega)]
          rw [show (zeroVelData d).sdot (i + 1) = 0 from rfl]
          simp

theorem linkAcc_zeroVel_eq_gravAcc (m : MBModel) (d : MBData) :
    ∀ i, i ≤ m.nJ → linkAcc m (zeroVelData d) 0 i = gravAcc m d i := by
  intro i
  induction i using Nat.strong_induction_on with
  | _ i ih =>
      match i with
      | 0 =>
          intro _
          rw [linkAcc_zero, gravAcc_zero, agBase_zeroVel]
          funext r
          simp
      | i + 1 =>
          intro hi
          have hpar_lt : m.par (i + 1) < i + 1 := m.par_lt (i + 1) (by omega) hi
          rw [linkAcc_succ m (zeroVelData d) 0 hi, ih (m.par (i + 1)) hpar_lt (by omega),
            gravAcc_succ m d hi, jointCoord_zero_fun, zero_smul, add_zero]
          rw [jointX_zeroVel]
          rw [show cTerm m (zeroVelData d) (i + 1)
              = (crm (linkVel m (zeroVelData d) (i + 1))).mulVec
                  ((0 : ℚ) • m.S (i + 1)) from rfl]
          rw [zero_smul, Matrix.mulVec_zero, add_zero]

theorem linkAcc_zero_decomp (m : MBModel) (d : MBData) :
    ∀ i, i ≤ m.nJ →
      linkAcc m d 0 i = gravAcc m d i + (linkKmat m d i).mulVec (genVel m d) := by
  intro i
  induction i using Nat.strong_induction_on with
  | _ i ih =>
      match i with
      | 0 =>
          intro _
          rw [linkAcc_zero, gravAcc_zero, linkKmat_zero, Matrix.zero_mulVec, add_zero]
          funext r
          simp
      | i + 1 =>
          intro hi
          have hpar_lt : m.par (i + 1) < i + 1 := m.par_lt (i + 1) (by omega) hi
          rw [linkAcc_succ m d 0 hi, ih (m.par (i + 1)) hpar_lt (by omega),
            gravAcc_succ m d hi, linkKmat_succ m d hi, jointCoord_zero_fun, zero_smul,
            add_zero, Matrix.add_mulVec, ← Matrix.mulVec_mulVec, Matrix.mulVec_add]
          have hcol : (Matrix.fromColumns 0
              (jointCol m.nJ ((crm (linkVel m d (i + 1))).mulVec (m.S (i + 1))) (i + 1))).mulVec
                (genVel m d) = cTerm m d (i + 1) := by
            rw [show genVel m d
                = Sum.elim (d.baseVel) (fun j => d.sdot (j.val + 1)) from rfl]
            rw [Matrix.fromColumns_mulVec_sum_elim, Matrix.zero_mulVec, zero_add,
              jointCol_mulVec _ (by omega) hi]
            have hsd : d.sdot ((⟨i + 1 - 1, by omega⟩ : Fin m.nJ).val + 1) = d.sdot (i + 1) := by
              congr 1
            rw [hsd, cTerm, Matrix.mulVec_smul]
          rw [hcol]
          abel

/-- C4 core: the zero-acceleration RNEA seed decomposes into the
Coriolis-factored part and the gravity part. -/
theorem bias_seed_decomp (m : MBModel) (d : MBData) {i : ℕ} (hile : i ≤ m.nJ) :
    rneaSeed m d 0 (fun _ => 0) i
      = ((crf (linkVel m d i) * m.inertia i * linkJac m d i
          + m.inertia i * linkKmat m d i).mulVec (genVel m d))
        + (m.inertia i).mulVec (gravAcc m d i) := by
  unfold rneaSeed
  rw [linkAcc_zero_decomp m d i hile, Matrix.mulVec_add, Matrix.add_mulVec,
    ← Matrix.mulVec_mulVec, ← Matrix.mulVec_mulVec, ← Matrix.mulVec_mulVec,
    ← linkVel_eq_jac_mulVec m d i hile]
  funext r
  simp only [Pi.add_apply, Pi.sub_apply, Pi.zero_apply]
  ring

/-! ## Positive definiteness helpers -/

theorem dotProduct_self_nonneg {k : Type} [Fintype k] (v : k → ℚ) : 0 ≤ v ⬝ᵥ v :=
  Finset.sum_nonneg fun i _ => mul_self_nonneg (v i)

theorem posDefQ_one {k : Type} [Fintype k] [DecidableEq k] : PosDefQ (1 : Matrix k k ℚ) := by
  constructor
  · exact Matrix.transpose_one
  · intro x hx
    rw [Matrix.one_mulVec]
    exact lt_of_le_of_ne (dotProduct_self_nonneg x)
      fun hc => hx (Matrix.dotProduct_self_eq_zero.mp hc.symm)

theorem membership_range_nLinks {m : MBModel} {i : ℕ} (hi : i ∈ Finset.range m.nLinks) :
    i ≤ m.nJ := by
  have := Finset.mem_range.mp hi
  unfold MBModel.nLinks at this
  omega

theorem nLinks_range_mem {m : MBModel} {i : ℕ} (hi : i ≤ m.nJ) :
    i ∈ Finset.range m.nLinks := by
  rw [Finset.mem_range]
  unfold MBModel.nLinks
  omega

/-- If the stacked body Jacobian annihilates a generalized vector, the vector
is zero (the base block is invertible and each joint column is nonzero). -/
theorem jac_kernel_trivial (m : MBModel) (d : MBData)
    (hS : ∀ i, 1 ≤ i → i ≤ m.nJ → m.S i ≠ 0) (x : GIdx m.nJ → ℚ)
    (hall : ∀ i, i ≤ m.nJ → (linkJac m d i).mulVec x = 0) : x = 0 := by
  funext g
  cases g with
  | inl r =>
      have h0 := hall 0 (Nat.zero_le _)
      rw [linkJac_zero_mulVec] at h0
      have := congrFun h0 r
      simpa using this
  | inr j =>
      have hj1 : j.val + 1 ≤ m.nJ := j.isLt
      have hstep := linkJac_mulVec_step m d (by omega) hj1 x
      have hparle : m.par (j.val + 1) ≤ m.nJ := by
        have := m.par_lt (j.val + 1) (by omega) hj1
        omega
      rw [hall (j.val + 1) hj1, hall (m.par (j.val + 1)) hparle,
        Matrix.mulVec_zero, zero_add] at hstep
      rcases smul_eq_zero.mp hstep.symm with h | h
      · rw [jointCoord_succ x j.isLt] at h
        simpa using h
      · exact absurd h (hS (j.val + 1) (by omega) hj1)

/-- C3: for every `q`, the free-floating mass matrix returned by
`free_floating_mass_matrix` is symmetric, and positive-definite for every
model whose links all have strictly positive mass — modelled, per spec §4.2
"physically valid model", as every link having a positive-definite spatial
inertia and every joint a nonzero motion subspace. -/
theorem mass_matrix_symm_posdef (m : MBModel) (d : MBData)
    (hI : ∀ i, i ≤ m.nJ → PosDefQ (m.inertia i))
    (hS : ∀ i, 1 ≤ i → i ≤ m.nJ → m.S i ≠ 0) :
    (free_floating_mass_matrix m d)ᵀ = free_floating_mass_matrix m d
      ∧ PosDefQ (free_floating_mass_matrix m d) := by
  have hsym : (free_floating_mass_matrix m d)ᵀ = free_floating_mass_matrix m d := by
    rw [free_floating_mass_matrix, Matrix.transpose_sum]
    refine Finset.sum_congr rfl fun i hi => ?_
    calc ((linkJac m d i)ᵀ * m.inertia i * linkJac m d i)ᵀ
        = (linkJac m d i)ᵀ * ((m.inertia i)ᵀ * linkJac m d i) := by
          rw [Matrix.transpose_mul, Matrix.transpose_mul, Matrix.transpose_transpose]
      _ = (linkJac m d i)ᵀ * m.inertia i * linkJac m d i := by
          rw [(hI i (membership_range_nLinks hi)).1, Matrix.mul_assoc]
  refine ⟨hsym, hsym, ?_⟩
  intro x hx
  have hdot : x ⬝ᵥ (free_floating_mass_matrix m d).mulVec x
      = ∑ i ∈ Finset.range m.nLinks,
          ((linkJac m d i).mulVec x) ⬝ᵥ ((m.inertia i).mulVec ((linkJac m d i).mulVec x)) := by
    rw [free_floating_mass_matrix, finsetSum_mulVec, dotProduct_finsetSum]
    refine Finset.sum_congr rfl fun i _ => ?_
    rw [← Matrix.mulVec_mulVec, ← Matrix.mulVec_mulVec,
      Matrix.dotProduct_comm x, transpose_mulVec_dot, Matrix.dotProduct_comm]
  rw [hdot]
  have hex : ∃ i₀ ∈ Finset.range m.nLinks, (linkJac m d i₀).mulVec x ≠ 0 := by
    by_contra hcon
    push_neg at hcon
    exact hx (jac_kernel_trivial m d hS x fun i hile =>
      hcon i (nLinks_range_mem hile))
  obtain ⟨i₀, hi₀mem, hi₀⟩ := hex
  refine Finset.sum_pos' (fun i hi => ?_) ⟨i₀, hi₀mem, ?_⟩
  · by_cases hz : (linkJac m d i).mulVec x = 0
    · rw [hz]
      simp
    · exact le_of_lt ((hI i (membership_range_nLinks hi)).2 _ hz)
  · exact (hI i₀ (membership_range_nLinks hi₀mem)).2 _ hi₀

/-- C4: for every valid `(q, ν)`, the bias-force vector decomposes exactly as
`h(q, ν) = C(q, ν) · ν + g(q)`, where `h`, `C` and `g` are the values
returned by `free_floating_bias_forces`, `free_floating_coriolis_matrix` and
`free_floating_gravity_forces` on the same model and data. -/
theorem bias_forces_decompose (m : MBModel) (d : MBData) :
    free_floating_bias_forces m d
      = (free_floating_coriolis_matrix m d).mulVec (genVel m d)
        + free_floating_gravity_forces m d := by
  rw [free_floating_bias_forces, free_floating_gravity_forces, rneaGen_eq_sum,
    rneaGen_eq_sum, linkJac_zeroVel, free_floating_coriolis_matrix, finsetSum_mulVec,
    ← Finset.sum_add_distrib]
  refine Finset.sum_congr rfl fun i hi => ?_
  have hile : i ≤ m.nJ := membership_range_nLinks hi
  have hseed0 : rneaSeed m (zeroVelData d) 0 (fun _ => 0) i
      = (m.inertia i).mulVec (gravAcc m d i) := by
    unfold rneaSeed
    rw [linkVel_zeroVel m d i hile, linkAcc_zeroVel_eq_gravAcc m d i hile]
    funext r
    simp [Matrix.mulVec_zero]
  rw [hseed0, bias_seed_decomp m d hile, Matrix.mulVec_add, Matrix.mulVec_mulVec]

/-- C5: for every valid `(q, ν)`, the 6D centroidal momentum returned by
`centroidal_momentum` equals the Centroidal Momentum Matrix returned by
`centroidal_momentum_jacobian` applied to the generalized velocity. -/
theorem centroidal_momentum_eq_cmm_mulVec (m : MBModel) (d : MBData) :
    centroidal_momentum m d
      = (centroidal_momentum_jacobian m d).mulVec (genVel m d) := by
  rw [centroidal_momentum, centroidal_momentum_jacobian, finsetSum_mulVec]
  refine Finset.sum_congr rfl fun i hi => ?_
  rw [← Matrix.mulVec_mulVec, ← Matrix.mulVec_mulVec,
    ← linkVel_eq_jac_mulVec m d i (membership_range_nLinks hi)]

/-! ## ABA correctness -/

theorem abaPair_rec (m : MBModel) (d : MBData) (τ : Fin m.nJ → ℚ) (fext : ℕ → V6)
    (i : ℕ) :
    abaPair m d τ fext i
      = abaSeed m d fext i
        + ∑ c ∈ childSet m.par m.nJ i, abaContrib m d τ c (abaPair m d τ fext c) :=
  bwdVal_eq _ _ _ _ m.par_lt i

theorem abaAcc_zero (m : MBModel) (d : MBData) (τ : Fin m.nJ → ℚ) (fext : ℕ → V6) :
    abaAcc m d τ fext 0
      = -(minv (abaPair m d τ fext 0).1).mulVec (abaPair m d τ fext 0).2 :=
  fwdAcc_zero _ _ _ _

theorem abaAcc_succ (m : MBModel) (d : MBData) (τ : Fin m.nJ → ℚ) (fext : ℕ → V6)
    {i : ℕ} (hi : i + 1 ≤ m.nJ) :
    abaAcc m d τ fext (i + 1)
      = ((jointX m d (i + 1)).mulVec (abaAcc m d τ fext (m.par (i + 1)))
          + cTerm m d (i + 1))
        + abaSddOf m d τ fext (abaAcc m d τ fext (m.par (i + 1))) (i + 1) • m.S (i + 1) :=
  fwdAcc_succ _ _ _ hi (by have := m.par_lt (i + 1) (by omega) hi; omega)

/-- The RNEA forward pass evaluated at the ABA generalized acceleration
reproduces the ABA accelerations. -/
theorem linkAcc_abaNudot (m : MBModel) (d : MBData) (τ : Fin m.nJ → ℚ)
    (fext : ℕ → V6) :
    ∀ i, i ≤ m.nJ → linkAcc m d (abaNudot m d τ fext) i = abaAcc m d τ fext i := by
  intro i
  induction i using Nat.strong_induction_on with
  | _ i ih =>
      match i with
      | 0 =>
          intro _
          rw [linkAcc_zero]
          funext r
          show (abaAcc m d τ fext 0 + agBase m d) r - agBase m d r = abaAcc m d τ fext 0 r
          simp
      | i + 1 =>
          intro hi
          have hpar_lt : m.par (i + 1) < i + 1 := m.par_lt (i + 1) (by omega) hi
          rw [linkAcc_succ m d _ hi, ih (m.par (i + 1)) hpar_lt (by omega),
            abaAcc_succ m d τ fext hi]
          rw [show jointCoord (abaNudot m d τ fext) (i + 1)
              = abaSdd m d τ fext (i + 1) from by
            rw [jointCoord_succ _ (show i < m.nJ by omega)]
            rfl]
          rw [abaSdd]
          abel

theorem childSet_empty_of_ge (m : MBModel) {i : ℕ} (hi : m.nJ ≤ i) :
    childSet m.par m.nJ i = ∅ := by
  ext c
  simp only [childSet, Finset.mem_filter, Finset.mem_Ioc, Finset.not_mem_empty,
    iff_false, not_and]
  intro hc
  have := m.par_lt c hc.1 hc.2
  omega

/-- The child-before-parent force recurrence has a unique solution: any
family satisfying it agrees with the RNEA backward pass. -/
theorem rnea_balance_unique (m : MBModel) (d : MBData) (nudot : GIdx m.nJ → ℚ)
    (fext : ℕ → V6) (g : ℕ → V6)
    (hg : ∀ i, i ≤ m.nJ →
      g i = rneaSeed m d nudot fext i
        + ∑ c ∈ childSet m.par m.nJ i, (jointX m d c)ᵀ.mulVec (g c)) :
    ∀ i, i ≤ m.nJ → g i = rneaForce m d nudot fext i := by
  have key : ∀ k i, i ≤ m.nJ → m.nJ - i ≤ k → g i = rneaForce m d nudot fext i := by
    intro k
    induction k with
    | zero =>
        intro i hi hk
        have hieq : i = m.nJ := by omega
        rw [hg i hi, rneaForce_rec, hieq, childSet_empty_of_ge m le_rfl]
        simp
    | succ k ih =>
        intro i hi hk
        rw [hg i hi, rneaForce_rec]
        congr 1
        refine Finset.sum_congr rfl fun c hc => ?_
        have hc' : c ∈ Finset.Ioc 0 m.nJ ∧ m.par c = i := by
          simpa [childSet, Finset.mem_filter] using hc
        have hc1 : 1 ≤ c := (Finset.mem_Ioc.mp hc'.1).1
        have hc2 : c ≤ m.nJ := (Finset.mem_Ioc.mp hc'.1).2
        have hclt : i < c := by
          have := m.par_lt c hc1 hc2
          omega
        rw [ih c hc2 (by omega)]
  intro i hi
  exact key (m.nJ - i) i hi le_rfl

/-- The per-joint elimination step of ABA is exact: a child's articulated
contribution applied to the parent acceleration reproduces the transformed
child net force. -/
theorem abaContrib_apply_parent (m : MBModel) (d : MBData) (τ : Fin m.nJ → ℚ)
    (fext : ℕ → V6) {c : ℕ} (h1 : 1 ≤ c) (h2 : c ≤ m.nJ) :
    (abaContrib m d τ c (abaPair m d τ fext c)).1.mulVec
        (abaAcc m d τ fext (m.par c))
      + (abaContrib m d τ c (abaPair m d τ fext c)).2
      = (jointX m d c)ᵀ.mulVec (abaForce m d τ fext c) := by
  match c, h1 with
  | c' + 1, _ =>
    set IA : M6 := (abaPair m d τ fext (c' + 1)).1 with hIA
    set pA : V6 := (abaPair m d τ fext (c' + 1)).2 with hpA
    set X : M6 := jointX m d (c' + 1) with hX
    set Sv : V6 := m.S (c' + 1) with hSv
    set cc : V6 := cTerm m d (c' + 1) with hcc
    set ap : V6 := abaAcc m d τ fext (m.par (c' + 1)) with hap
    set U : V6 := IA.mulVec Sv with hU
    set dd : ℚ := Sv ⬝ᵥ U with hdd
    set u : ℚ := finCoord τ (c' + 1) - Sv ⬝ᵥ pA with hu
    have hsdd : abaSddOf m d τ fext ap (c' + 1)
        = dd⁻¹ * (u - Sv ⬝ᵥ IA.mulVec (X.mulVec ap + cc)) := rfl
    have hacc : abaAcc m d τ fext (c' + 1)
        = (X.mulVec ap + cc) + (dd⁻¹ * (u - Sv ⬝ᵥ IA.mulVec (X.mulVec ap + cc))) • Sv := by
      rw [abaAcc_succ m d τ fext h2, hsdd]
    have hIapp : ∀ w : V6,
        (IA - dd⁻¹ • Matrix.vecMulVec U (Sv ᵥ* IA)).mulVec w
          = IA.mulVec w - (dd⁻¹ * (Sv ⬝ᵥ IA.mulVec w)) • U := by
      intro w
      rw [Matrix.sub_mulVec, Matrix.smul_mulVec_assoc, vecMulVec_mulVec]
      rw [show (Sv ᵥ* IA) ⬝ᵥ w = Sv ⬝ᵥ IA.mulVec w from (Matrix.dotProduct_mulVec Sv IA w).symm]
      rw [smul_smul]
    have hinner : (IA - dd⁻¹ • Matrix.vecMulVec U (Sv ᵥ* IA)).mulVec (X.mulVec ap)
        + (pA + (IA - dd⁻¹ • Matrix.vecMulVec U (Sv ᵥ* IA)).mulVec cc
            + (dd⁻¹ * u) • U)
        = IA.mulVec (abaAcc m d τ fext (c' + 1)) + pA := by
      rw [hacc, hIapp, hIapp]
      funext r
      simp only [Pi.add_apply, Pi.sub_apply, Pi.smul_apply, smul_eq_mul,
        Matrix.mulVec_add, Matrix.mulVec_smul, Matrix.dotProduct_add]
      ring
    show ((jointX m d (c' + 1))ᵀ *
          (IA - dd⁻¹ • Matrix.vecMulVec U (Sv ᵥ* IA)) * jointX m d (c' + 1)).mulVec ap
        + (jointX m d (c' + 1))ᵀ.mulVec
            (pA + (IA - dd⁻¹ • Matrix.vecMulVec U (Sv ᵥ* IA)).mulVec cc
              + (dd⁻¹ * (finCoord τ (c' + 1) - Sv ⬝ᵥ pA)) • U)
        = (jointX m d (c' + 1))ᵀ.mulVec (abaForce m d τ fext (c' + 1))
    rw [← hX, ← hu]
    rw [← Matrix.mulVec_mulVec, ← Matrix.mulVec_mulVec, ← Matrix.mulVec_add]
    rw [hinner]
    rw [abaForce, ← hIA, ← hpA]

/-- The ABA net forces satisfy the Newton–Euler child-before-parent balance
at the ABA accelerations. -/
theorem abaForce_balance (m : MBModel) (d : MBData) (τ : Fin m.nJ → ℚ) (fext : ℕ → V6) :
    ∀ i, i ≤ m.nJ →
      abaForce m d τ fext i
        = rneaSeed m d (abaNudot m d τ fext) fext i
          + ∑ c ∈ childSet m.par m.nJ i,
              (jointX m d c)ᵀ.mulVec (abaForce m d τ fext c) := by
  intro i hi
  have hfst : (abaPair m d τ fext i).1
      = m.inertia i
        + ∑ c ∈ childSet m.par m.nJ i, (abaContrib m d τ c (abaPair m d τ fext c)).1 := by
    rw [abaPair_rec, Prod.fst_add, Prod.fst_sum]
    rfl
  have hsnd : (abaPair m d τ fext i).2
      = ((crf (linkVel m d i)).mulVec ((m.inertia i).mulVec (linkVel m d i)) - fext i)
        + ∑ c ∈ childSet m.par m.nJ i, (abaContrib m d τ c (abaPair m d τ fext c)).2 := by
    rw [abaPair_rec, Prod.snd_add, Prod.snd_sum]
    rfl
  have hseed : rneaSeed m d (abaNudot m d τ fext) fext i
      = (m.inertia i).mulVec (abaAcc m d τ fext i)
        + ((crf (linkVel m d i)).mulVec ((m.inertia i).mulVec (linkVel m d i)) - fext i) := by
    unfold rneaSeed
    rw [linkAcc_abaNudot m d τ fext i hi]
    funext r
    simp only [Pi.add_apply, Pi.sub_apply]
    ring
  have hchild : ∀ c ∈ childSet m.par m.nJ i,
      (jointX m d c)ᵀ.mulVec (abaForce m d τ fext c)
        = (abaContrib m d τ c (abaPair m d τ fext c)).1.mulVec (abaAcc m d τ fext i)
          + (abaContrib m d τ c (abaPair m d τ fext c)).2 := by
    intro c hc
    have hc' : c ∈ Finset.Ioc 0 m.nJ ∧ m.par c = i := by
      simpa [childSet, Finset.mem_filter] using hc
    have hc1 : 1 ≤ c := (Finset.mem_Ioc.mp hc'.1).1
    have hc2 : c ≤ m.nJ := (Finset.mem_Ioc.mp hc'.1).2
    rw [show abaAcc m d τ fext i = abaAcc m d τ fext (m.par c) by rw [hc'.2]]
    exact (abaContrib_apply_parent m d τ fext hc1 hc2).symm
  rw [abaForce, hfst, hsnd, Matrix.add_mulVec, finsetSum_mulVec, hseed,
    Finset.sum_congr rfl hchild, Finset.sum_add_distrib]
  abel

/-- The ABA joint accelerations realize the input joint torques: projecting
the net force on the motion subspace recovers `τ`. -/
theorem abaForce_proj (m : MBModel) (d : MBData) (τ : Fin m.nJ → ℚ) (fext : ℕ → V6)
    {c : ℕ} (h1 : 1 ≤ c) (h2 : c ≤ m.nJ)
    (hd : m.S c ⬝ᵥ (abaPair m d τ fext c).1.mulVec (m.S c) ≠ 0) :
    m.S c ⬝ᵥ abaForce m d τ fext c = finCoord τ c := by
  match c, h1 with
  | c' + 1, _ =>
    set IA : M6 := (abaPair m d τ fext (c' + 1)).1 with hIA
    set pA : V6 := (abaPair m d τ fext (c' + 1)).2 with hpA
    set X : M6 := jointX m d (c' + 1) with hX
    set Sv : V6 := m.S (c' + 1) with hSv
    set cc : V6 := cTerm m d (c' + 1) with hcc
    set ap : V6 := abaAcc m d τ fext (m.par (c' + 1)) with hap
    rw [abaForce, abaAcc_succ m d τ fext h2]
    rw [← hIA, ← hpA, ← hX, ← hSv, ← hcc, ← hap]
    have hsdd : abaSddOf m d τ fext ap (c' + 1)
        = (Sv ⬝ᵥ IA.mulVec Sv)⁻¹ *
            ((finCoord τ (c' + 1) - Sv ⬝ᵥ pA) - Sv ⬝ᵥ IA.mulVec (X.mulVec ap + cc)) := rfl
    rw [hsdd, Matrix.dotProduct_add, Matrix.mulVec_add, Matrix.dotProduct_add,
      Matrix.mulVec_smul, Matrix.dotProduct_smul, smul_eq_mul]
    have hdne : Sv ⬝ᵥ IA.mulVec Sv ≠ 0 := hd
    field_simp

/-- The ABA base acceleration zeroes the net base force (free-floating base
balance). -/
theorem abaForce_base (m : MBModel) (d : MBData) (τ : Fin m.nJ → ℚ) (fext : ℕ → V6)
    (h0 : ((abaPair m d τ fext 0).1).det ≠ 0) :
    abaForce m d τ fext 0 = 0 := by
  rw [abaForce, abaAcc_zero, Matrix.mulVec_neg, mulVec_minv_cancel h0]
  simp

/-- RNEA evaluated at the ABA output returns exactly the input torques and a
zero net base force. -/
theorem rneaGen_abaNudot (m : MBModel) (d : MBData) (τ : Fin m.nJ → ℚ) (fext : ℕ → V6)
    (hd : ∀ c, 1 ≤ c → c ≤ m.nJ →
      m.S c ⬝ᵥ (abaPair m d τ fext c).1.mulVec (m.S c) ≠ 0)
    (h0 : ((abaPair m d τ fext 0).1).det ≠ 0) :
    rneaGen m d (abaNudot m d τ fext) fext = Sum.elim (0 : V6) τ := by
  have heq : ∀ i, i ≤ m.nJ →
      abaForce m d τ fext i = rneaForce m d (abaNudot m d τ fext) fext i :=
    rnea_balance_unique m d _ fext _ (abaForce_balance m d τ fext)
  funext g
  cases g with
  | inl r =>
      show rneaForce m d (abaNudot m d τ fext) fext 0 r = (0 : V6) r
      rw [← heq 0 (Nat.zero_le _), abaForce_base m d τ fext h0]
  | inr j =>
      show m.S (j.val + 1) ⬝ᵥ rneaForce m d (abaNudot m d τ fext) fext (j.val + 1) = τ j
      rw [← heq (j.val + 1) j.isLt,
        abaForce_proj m d τ fext (by omega) j.isLt (hd _ (by omega) j.isLt),
        finCoord_succ τ j.isLt]

/-- The ABA output satisfies the equations of motion. -/
theorem aba_eom (m : MBModel) (d : MBData) (τ : Fin m.nJ → ℚ) (fext : ℕ → V6)
    (hd : ∀ c, 1 ≤ c → c ≤ m.nJ →
      m.S c ⬝ᵥ (abaPair m d τ fext c).1.mulVec (m.S c) ≠ 0)
    (h0 : ((abaPair m d τ fext 0).1).det ≠ 0) :
    (free_floating_mass_matrix m d).mulVec (abaNudot m d τ fext)
      = (Bmat m.nJ).mulVec τ + extGenForces m d fext
        - free_floating_bias_forces m d := by
  have haff := rneaGen_affine m d (abaNudot m d τ fext) fext
  rw [rneaGen_abaNudot m d τ fext hd h0] at haff
  rw [Bmat_mulVec]
  funext g
  have hg := congrFun haff g
  simp only [Pi.add_apply, Pi.sub_apply] at hg ⊢
  linarith [hg]

/-- C1: for every valid model and state `(q, ν)`, joint torques `τ` and link
forces `f`, the generalized acceleration obtained by directly solving the
equations of motion (pseudo-inverse of `M` applied to `B τ - h + Jᵀ f`)
equals the generalized acceleration returned by `forward_dynamics_aba` (the
Articulated Body Algorithm); over exact rational arithmetic the agreement is
exact.  Validity is expressed by the nonsingularity of the articulated-body
quantities and of the mass matrix. -/
theorem forward_dynamics_eom_eq_aba (m : MBModel) (d : MBData) (τ : Fin m.nJ → ℚ)
    (fext : ℕ → V6)
    (hd : ∀ c, 1 ≤ c → c ≤ m.nJ →
      m.S c ⬝ᵥ (abaPair m d τ fext c).1.mulVec (m.S c) ≠ 0)
    (h0 : ((abaPair m d τ fext 0).1).det ≠ 0)
    (hM : (free_floating_mass_matrix m d).det ≠ 0) :
    forward_dynamics m d τ fext
      = Sum.elim (forward_dynamics_aba m d τ fext).1
          (forward_dynamics_aba m d τ fext).2 := by
  have heom := aba_eom m d τ fext hd h0
  rw [forward_dynamics, ← heom, minv_mulVec_cancel hM]
  rfl

theorem extGenForces_update_base (m : MBModel) (d : MBData) (f : ℕ → V6) (u : V6) :
    extGenForces m d (Function.update f 0 u)
      = extGenForces m d f - Sum.elim (f 0) (0 : Fin m.nJ → ℚ)
        + Sum.elim u (0 : Fin m.nJ → ℚ) := by
  unfold extGenForces
  rw [show Finset.range m.nLinks = insert 0 (Finset.Ioc 0 m.nJ) from range_succ_insert m.nJ,
    Finset.sum_insert (zero_not_mem_Ioc m.nJ), Finset.sum_insert (zero_not_mem_Ioc m.nJ)]
  rw [Function.update_same, linkJac_zero_transpose_mulVec, linkJac_zero_transpose_mulVec]
  have hrest : ∑ i ∈ Finset.Ioc 0 m.nJ, (linkJac m d i)ᵀ.mulVec (Function.update f 0 u i)
      = ∑ i ∈ Finset.Ioc 0 m.nJ, (linkJac m d i)ᵀ.mulVec (f i) := by
    refine Finset.sum_congr rfl fun i hi => ?_
    have hne : i ≠ 0 := by
      have := (Finset.mem_Ioc.mp hi).1
      omega
    rw [Function.update_noteq hne]
  rw [hrest]
  abel

theorem abaNudot_stack (m : MBModel) (d : MBData) (τ : Fin m.nJ → ℚ) (f : ℕ → V6) :
    Sum.elim (forward_dynamics_aba m d τ f).1 (forward_dynamics_aba m d τ f).2
      = abaNudot m d τ f := rfl

/-- C2: inverse dynamics is the exact inverse of forward dynamics: for every
valid `(q, ν, ν̇, f)` with the base entry of `f` zero, `inverse_dynamics`
returns `(f_B, τ)` such that forward dynamics at `τ` with `f_B` substituted
as the base-link external force reproduces `ν̇`; and when the accelerations
come from `forward_dynamics_aba` under torques `τ` and forces `f`,
`inverse_dynamics` with the base entry of `f` zeroed returns `τ` and the
original base-link force. -/
theorem inverse_dynamics_inverts_forward_dynamics (m : MBModel) (d : MBData)
    (aB : V6) (sdd : Fin m.nJ → ℚ) (τ : Fin m.nJ → ℚ) (f : ℕ → V6)
    (hd : ∀ c, 1 ≤ c → c ≤ m.nJ →
      m.S c ⬝ᵥ (abaPair m d τ f c).1.mulVec (m.S c) ≠ 0)
    (h0 : ((abaPair m d τ f 0).1).det ≠ 0)
    (hM : (free_floating_mass_matrix m d).det ≠ 0) :
    (f 0 = 0 →
      forward_dynamics m d (inverse_dynamics m d aB sdd f).2
          (Function.update f 0 (inverse_dynamics m d aB sdd f).1)
        = Sum.elim aB sdd)
    ∧ inverse_dynamics m d (forward_dynamics_aba m d τ f).1
        (forward_dynamics_aba m d τ f).2 (Function.update f 0 0)
      = (f 0, τ) := by
  constructor
  · intro hf0
    have hg : rneaGen m d (Sum.elim aB sdd) f
        = (free_floating_mass_matrix m d).mulVec (Sum.elim aB sdd)
          + free_floating_bias_forces m d - extGenForces m d f :=
      rneaGen_affine m d (Sum.elim aB sdd) f
    have hzero : Sum.elim (f 0) (0 : Fin m.nJ → ℚ) = 0 := by
      rw [hf0]
      funext g
      cases g <;> simp
    have harg : (Bmat m.nJ).mulVec ((inverse_dynamics m d aB sdd f).2)
        + extGenForces m d (Function.update f 0 (inverse_dynamics m d aB sdd f).1)
        - free_floating_bias_forces m d
        = (free_floating_mass_matrix m d).mulVec (Sum.elim aB sdd) := by
      rw [extGenForces_update_base, hzero, Bmat_mulVec]
      rw [show (inverse_dynamics m d aB sdd f).2 = (rneaGen m d (Sum.elim aB sdd) f) ∘ Sum.inr
          from rfl]
      rw [show (inverse_dynamics m d aB sdd f).1 = (rneaGen m d (Sum.elim aB sdd) f) ∘ Sum.inl
          from rfl]
      have hstack : Sum.elim (0 : V6) ((rneaGen m d (Sum.elim aB sdd) f) ∘ Sum.inr)
          + Sum.elim ((rneaGen m d (Sum.elim aB sdd) f) ∘ Sum.inl) (0 : Fin m.nJ → ℚ)
          = rneaGen m d (Sum.elim aB sdd) f := by
        rw [elim_add_elim, zero_add, add_zero, Sum.elim_comp_inl_inr]
      calc Sum.elim (0 : V6) ((rneaGen m d (Sum.elim aB sdd) f) ∘ Sum.inr)
            + (extGenForces m d f - 0
               + Sum.elim ((rneaGen m d (Sum.elim aB sdd) f) ∘ Sum.inl) (0 : Fin m.nJ → ℚ))
            - free_floating_bias_forces m d
          = (Sum.elim (0 : V6) ((rneaGen m d (Sum.elim aB sdd) f) ∘ Sum.inr)
              + Sum.elim ((rneaGen m d (Sum.elim aB sdd) f) ∘ Sum.inl) (0 : Fin m.nJ → ℚ))
            + extGenForces m d f - free_floating_bias_forces m d := by abel
        _ = rneaGen m d (Sum.elim aB sdd) f + extGenForces m d f
            - free_floating_bias_forces m d := by rw [hstack]
        _ = (free_floating_mass_matrix m d).mulVec (Sum.elim aB sdd) := by
            rw [hg]; abel
    rw [forward_dynamics, harg, minv_mulVec_cancel hM]
  · have hg : rneaGen m d (abaNudot m d τ f) (Function.update f 0 0)
        = Sum.elim (f 0) τ := by
      have haff := rneaGen_affine m d (abaNudot m d τ f) (Function.update f 0 0)
      rw [aba_eom m d τ f hd h0, extGenForces_update_base] at haff
      rw [haff, Bmat_mulVec]
      have hzz : Sum.elim (0 : V6) (0 : Fin m.nJ → ℚ) = 0 := by
        funext g
        cases g <;> simp
      calc Sum.elim (0 : V6) τ + extGenForces m d f - free_floating_bias_forces m d
            + free_floating_bias_forces m d
            - (extGenForces m d f - Sum.elim (f 0) (0 : Fin m.nJ → ℚ)
               + Sum.elim (0 : V6) (0 : Fin m.nJ → ℚ))
          = Sum.elim (0 : V6) τ + Sum.elim (f 0) (0 : Fin m.nJ → ℚ)
            - Sum.elim (0 : V6) (0 : Fin m.nJ → ℚ) := by abel
        _ = Sum.elim (f 0) τ := by
            rw [hzz, sub_zero, elim_add_elim, zero_add, add_zero]
    rw [show inverse_dynamics m d (forward_dynamics_aba m d τ f).1
        (forward_dynamics_aba m d τ f).2 (Function.update f 0 0)
        = ((rneaGen m d (abaNudot m d τ f) (Function.update f 0 0)) ∘ Sum.inl,
           (rneaGen m d (abaNudot m d τ f) (Function.update f 0 0)) ∘ Sum.inr) from rfl]
    rw [hg]
    rw [Sum.elim_comp_inl, Sum.elim_comp_inr]

/-! ## Model-reduction lemmas -/

theorem raOld_zero (m : MBModel) (cs : List ℕ) : raOld m cs 0 = 0 :=
  fwdAcc_zero _ _ _ _

theorem raOld_succ (m : MBModel) (cs : List ℕ) {i : ℕ} (hi : i + 1 ≤ m.nJ) :
    raOld m cs (i + 1)
      = if keepOf cs (i + 1) then i + 1 else raOld m cs (m.par (i + 1)) :=
  fwdAcc_succ _ _ _ hi (by have := m.par_lt (i + 1) (by omega) hi; omega)

theorem raOld_le_self (m : MBModel) (cs : List ℕ) :
    ∀ i, i ≤ m.nJ → raOld m cs i ≤ i := by
  intro i
  induction i using Nat.strong_induction_on with
  | _ i ih =>
      match i with
      | 0 => intro _; rw [raOld_zero]
      | i + 1 =>
          intro hi
          have hpar_lt : m.par (i + 1) < i + 1 := m.par_lt (i + 1) (by omega) hi
          rw [raOld_succ m cs hi]
          split
          · exact le_rfl
          · have := ih (m.par (i + 1)) hpar_lt (by omega)
            omega

theorem newIdx_mono (cs : List ℕ) {a b : ℕ} (hab : a ≤ b) :
    newIdx cs a ≤ newIdx cs b := by
  unfold newIdx
  induction cs with
  | nil => simp
  | cons c tl ih =>
      rw [List.filter_cons, List.filter_cons]
      by_cases hca : c ≤ a
      · rw [if_pos (by simpa using hca), if_pos (by simpa using le_trans hca hab)]
        simpa using ih
      · by_cases hcb : c ≤ b
        · rw [if_neg (by simpa using hca), if_pos (by simpa using hcb)]
          simp only [List.length_cons]
          exact le_trans ih (Nat.le_succ _)
        · rw [if_neg (by simpa using hca), if_neg (by simpa using hcb)]
          exact ih

theorem sorted_filter_lt_length :
    ∀ (cs : List ℕ), List.Pairwise (· < ·) cs → ∀ k (hk : k < cs.length),
      (cs.filter fun x => decide (x < cs.get ⟨k, hk⟩)).length = k := by
  intro cs
  induction cs with
  | nil =>
      intro _ k hk
      simp at hk
  | cons a tl ih =>
      intro hpw k hk
      match k with
      | 0 =>
          have hnil : (a :: tl).filter (fun x => decide (x < (a :: tl).get ⟨0, hk⟩)) = [] := by
            rw [List.filter_eq_nil_iff]
            intro x hx
            simp only [List.get, decide_eq_true_eq]
            rcases List.mem_cons.mp hx with hxa | hxtl
            · subst hxa
              omega
            · have := (List.pairwise_cons.mp hpw).1 x hxtl
              omega
          rw [hnil]
          rfl
      | k + 1 =>
          have hk' : k < tl.length := by simpa using hk
          have hget : (a :: tl).get ⟨k + 1, hk⟩ = tl.get ⟨k, hk'⟩ := rfl
          rw [hget, List.filter_cons]
          have hmem : tl.get ⟨k, hk'⟩ ∈ tl := by
            rw [List.get_eq_getElem]
            exact List.getElem_mem hk'
          have ha : a < tl.get ⟨k, hk'⟩ := (List.pairwise_cons.mp hpw).1 _ hmem
          rw [if_pos (by simpa using ha)]
          simp only [List.length_cons]
          rw [ih (List.pairwise_cons.mp hpw).2 k hk']

/-- For a valid considered-joints selection the clamp in the reduced parent
map never binds: the reduced parent is the new index of the retained
ancestor of the old parent. -/
theorem reduce_par_min_inert (m : MBModel) (cs : List ℕ) (qLock : ℕ → ℚ)
    (h : CsValid m cs) :
    ∀ r, 1 ≤ r → r ≤ cs.length →
      (reduceModel m cs qLock).par r
        = newIdx cs (raOld m cs (m.par (oldOf cs r))) := by
  intro r h1 h2
  have hk : r - 1 < cs.length := by omega
  have hc : oldOf cs r = cs.get ⟨r - 1, hk⟩ := by
    unfold oldOf
    rw [if_neg (by omega), List.getD_eq_getElem cs 0 hk, List.get_eq_getElem]
  have hcmem : cs.get ⟨r - 1, hk⟩ ∈ cs := by
    rw [List.get_eq_getElem]
    exact List.getElem_mem hk
  have hc1 : 1 ≤ cs.get ⟨r - 1, hk⟩ := (h.2 _ hcmem).1
  have hcn : cs.get ⟨r - 1, hk⟩ ≤ m.nJ := (h.2 _ hcmem).2
  have hparlt : m.par (cs.get ⟨r - 1, hk⟩) < cs.get ⟨r - 1, hk⟩ :=
    m.par_lt _ hc1 hcn
  have hra : raOld m cs (m.par (cs.get ⟨r - 1, hk⟩)) ≤ m.par (cs.get ⟨r - 1, hk⟩) :=
    raOld_le_self m cs _ (by omega)
  have hmono : newIdx cs (raOld m cs (m.par (cs.get ⟨r - 1, hk⟩)))
      ≤ newIdx cs (cs.get ⟨r - 1, hk⟩ - 1) := newIdx_mono cs (by omega)
  have hcount : newIdx cs (cs.get ⟨r - 1, hk⟩ - 1) = r - 1 := by
    unfold newIdx
    have hpw : List.Pairwise (· < ·) cs := List.chain'_iff_pairwise.mp h.1
    have hsf := sorted_filter_lt_length cs hpw (r - 1) hk
    have hfc : (List.filter (fun c => decide (c ≤ cs.get ⟨r - 1, hk⟩ - 1)) cs)
        = List.filter (fun x => decide (x < cs.get ⟨r - 1, hk⟩)) cs := by
      apply List.filter_congr
      intro x _
      simp only [decide_eq_decide]
      omega
    rw [hfc]
    exact hsf
  show min (newIdx cs (raOld m cs (m.par (oldOf cs r)))) (r - 1)
      = newIdx cs (raOld m cs (m.par (oldOf cs r)))
  rw [hc]
  exact Nat.min_eq_left (by omega)

/-- C8: for every model and every valid subset of its joints, reducing the
model by locking the complementary joints at fixed positions yields a new
model whose `dofs()` equals exactly the number of considered joints; the
locked-joint positions are not free variables of the reduced model's mass
matrix or Jacobians, whose dimensions are `6 + n` for `n` considered joints
(and the original model, an immutable value, is left unchanged). -/
theorem reduce_locks_joints (m : MBModel) (cs : List ℕ) (qLock : ℕ → ℚ)
    (h : CsValid m cs) :
    ∃ mr, reduce m cs qLock = Except.ok mr
      ∧ mr.dofs = cs.length
      ∧ Fintype.card (GIdx mr.dofs) = 6 + cs.length
      ∧ ∀ d₁ d₂ : MBData,
          (∀ i, 1 ≤ i → i ≤ mr.dofs → d₁.q i = d₂.q i) →
            free_floating_mass_matrix mr d₁ = free_floating_mass_matrix mr d₂
              ∧ ∀ i, i ≤ mr.dofs → linkJac mr d₁ i = linkJac mr d₂ i := by
  refine ⟨reduceModel m cs qLock, ?_, rfl, ?_, ?_⟩
  · rw [reduce, if_pos h]
  · simp [MBModel.dofs, reduceModel]
  · intro d₁ d₂ hq
    have hJac : ∀ i, i ≤ (reduceModel m cs qLock).nJ →
        linkJac (reduceModel m cs qLock) d₁ i = linkJac (reduceModel m cs qLock) d₂ i := by
      intro i
      induction i using Nat.strong_induction_on with
      | _ i ih =>
          match i with
          | 0 =>
              intro _
              rw [linkJac_zero, linkJac_zero]
          | i + 1 =>
              intro hi
              have hpar_lt : (reduceModel m cs qLock).par (i + 1) < i + 1 :=
                (reduceModel m cs qLock).par_lt (i + 1) (by omega) hi
              rw [linkJac_succ _ d₁ hi, linkJac_succ _ d₂ hi,
                ih _ hpar_lt (by omega)]
              have hX : jointX (reduceModel m cs qLock) d₁ (i + 1)
                  = jointX (reduceModel m cs qLock) d₂ (i + 1) := by
                unfold jointX
                rw [hq (i + 1) (by omega) hi]
              rw [hX]
    refine ⟨?_, hJac⟩
    unfold free_floating_mass_matrix
    refine Finset.sum_congr rfl fun i hi => ?_
    rw [hJac i (membership_range_nLinks hi)]

/-! ## Representation and lookup claim theorems -/

/-- C6: for every link and every frame of a valid model, and for every choice
of the data's active velocity representation `R_in` and requested output
representation `R_out`, the free-floating Jacobian returned with output
representation `R_out`, multiplied by the generalized velocity expressed in
`R_in`, equals the 6D velocity of that link or frame returned by the
velocity query with output representation `R_out`. -/
theorem jacobian_maps_genvel_to_velocity (m : MBModel) (d : MBData)
    (hB : d.basePose.Valid) :
    (∀ i, i ≤ m.nJ → ∀ rin rout : VelRepr,
        (linkJacRepr m d rin rout i).mulVec (genVelRepr m d rin)
          = linkVelRepr m d rout i)
    ∧ ∀ fd ∈ m.frames, fd.parent ≤ m.nJ →
        ∀ rin rout : VelRepr,
          (frameJacRepr m d rin rout fd).mulVec (genVelRepr m d rin)
            = frameVelRepr m d rout fd :=
  ⟨fun _ hi rin rout => linkJacRepr_mulVec m d rin rout hi hB,
   fun fd _ hp rin rout => frameJacRepr_mulVec m d rin rout fd hp hB⟩

/-- C7: velocity-representation conversion round-trips exactly: for every 6D
velocity and every current (valid) transform, converting from Body to
Inertial representation and back to Body reproduces the original vector —
each conversion being a 6×6 adjoint map. -/
theorem velocity_repr_roundtrip (H : Pose) (hH : H.Valid) (v : V6) :
    velToBody H (velToInertial H v) = v := by
  show (Ad H.inv).mulVec ((Ad H).mulVec v) = v
  rw [Matrix.mulVec_mulVec, Ad_inv_mul_Ad hH, Matrix.one_mulVec]

/-- C9: for every model, a kinematics query (transform, velocity, Jacobian)
given a link or frame index that does not belong to the model signals an
out-of-range error rather than silently returning a default or clamped
result (and conversely, in-range queries return the actual kinematics). -/
theorem out_of_range_queries_error (m : MBModel) (d : MBData) (idx : ℕ) :
    (m.nLinks ≤ idx →
      linkTransformChecked m d idx = Except.error "link index out of range"
      ∧ (∀ r, linkVelChecked m d r idx = Except.error "link index out of range")
      ∧ ∀ rin rout, linkJacChecked m d rin rout idx
          = Except.error "link index out of range")
    ∧ (m.frames.length ≤ idx →
      frameTransformChecked m d idx = Except.error "frame index out of range"
      ∧ (∀ r, frameVelChecked m d r idx = Except.error "frame index out of range")
      ∧ ∀ rin rout, frameJacChecked m d rin rout idx
          = Except.error "frame index out of range")
    ∧ (idx < m.nLinks → linkTransformChecked m d idx = Except.ok (fkPose m d idx))
    ∧ (idx < m.frames.length →
        ∃ fd, frameAt m idx = some fd
          ∧ frameTransformChecked m d idx = Except.ok (framePose m d fd)) := by
  refine ⟨?_, ?_, ?_, ?_⟩
  · intro hge
    have hnot : ¬ idx < m.nLinks := by omega
    exact ⟨by rw [linkTransformChecked, if_neg hnot],
      fun r => by rw [linkVelChecked, if_neg hnot],
      fun rin rout => by rw [linkJacChecked, if_neg hnot]⟩
  · intro hge
    have hnone : frameAt m idx = none := by
      unfold frameAt
      exact List.getElem?_eq_none hge
    refine ⟨?_, fun r => ?_, fun rin rout => ?_⟩
    · unfold frameTransformChecked
      rw [hnone]
    · unfold frameVelChecked
      rw [hnone]
    · unfold frameJacChecked
      rw [hnone]
  · intro hlt
    rw [linkTransformChecked, if_pos hlt]
  · intro hlt
    refine ⟨m.frames.get ⟨idx, hlt⟩, ?_, ?_⟩
    · unfold frameAt
      rw [List.getElem?_eq_getElem hlt, List.get_eq_getElem]
    · unfold frameTransformChecked frameAt
      rw [List.getElem?_eq_getElem hlt, List.get_eq_getElem]

theorem findName_sound (f : ℕ → String) (nm : String) :
    ∀ k i, findName f nm k = some i → i < k ∧ f i = nm := by
  intro k
  induction k with
  | zero =>
      intro i h
      simp [findName] at h
  | succ k ih =>
      intro i h
      rw [findName] at h
      cases hfk : findName f nm k with
      | some j =>
          rw [hfk] at h
          have hji : j = i := Option.some_inj.mp h
          have := ih j hfk
          exact ⟨by omega, by rw [← hji]; exact this.2⟩
      | none =>
          rw [hfk] at h
          by_cases hfkn : f k = nm
          · rw [if_pos hfkn] at h
            have hki : k = i := Option.some_inj.mp h
            exact ⟨by omega, by rw [← hki]; exact hfkn⟩
          · rw [if_neg hfkn] at h
            exact absurd h (by simp)

theorem findName_none (f : ℕ → String) (nm : String) :
    ∀ k, (∀ j, j < k → f j ≠ nm) → findName f nm k = none := by
  intro k
  induction k with
  | zero => intro _; rfl
  | succ k ih =>
      intro hall
      rw [findName, ih fun j hj => hall j (by omega)]
      rw [if_neg (hall k (by omega))]

theorem findName_complete (f : ℕ → String) (k : ℕ)
    (hinj : ∀ i j, i < k → j < k → f i = f j → i = j) :
    ∀ i, i < k → findName f (f i) k = some i := by
  induction k with
  | zero =>
      intro i hi
      omega
  | succ k ih =>
      intro i hi
      rw [findName]
      by_cases hik : i < k
      · rw [ih (fun a b ha hb => hinj a b (by omega) (by omega)) i hik]
      · have hieq : i = k := by omega
        subst hieq
        rw [findName_none f (f i) i fun j hj heq => by
          have := hinj j i (by omega) (by omega) heq
          omega]
        rw [if_pos rfl]

/-- C10: name/index lookups round-trip at the public interface: for every
link name present in the model, converting the name to an index and back
yields the original name, and the index returned is the one under which the
transform query addresses that link; the same holds for frame names and
frame indices. -/
theorem name_index_roundtrip (m : MBModel) (d : MBData)
    (hL : LinkNamesInj m) (hF : FrameNamesInj m) :
    (∀ i, i < m.nLinks → link_name_to_idx m (link_idx_to_name m i) = some i)
    ∧ (∀ nm i, link_name_to_idx m nm = some i →
        link_idx_to_name m i = nm
          ∧ linkTransformChecked m d i = Except.ok (fkPose m d i))
    ∧ (∀ i, i < m.frames.length →
        frame_name_to_idx m (frame_idx_to_name m i) = some i)
    ∧ (∀ nm i, frame_name_to_idx m nm = some i →
        frame_idx_to_name m i = nm
          ∧ ∃ fd, frameAt m i = some fd
              ∧ frameTransformChecked m d i = Except.ok (framePose m d fd)) := by
  refine ⟨?_, ?_, ?_, ?_⟩
  · intro i hi
    exact findName_complete m.linkName m.nLinks hL i hi
  · intro nm i h
    obtain ⟨hlt, hname⟩ := findName_sound m.linkName nm m.nLinks i h
    exact ⟨hname, by rw [linkTransformChecked, if_pos hlt]⟩
  · intro i hi
    exact findName_complete (frameNameAt m) m.frames.length hF i hi
  · intro nm i h
    obtain ⟨hlt, hname⟩ := findName_sound (frameNameAt m) nm m.frames.length i h
    refine ⟨hname, m.frames.get ⟨i, hlt⟩, ?_, ?_⟩
    · unfold frameAt
      rw [List.getElem?_eq_getElem hlt, List.get_eq_getElem]
    · unfold frameTransformChecked frameAt
      rw [List.getElem?_eq_getElem hlt, List.get_eq_getElem]


/-! ## Concrete witnesses -/

/-- On the base-only model at rest the mass matrix is the identity. -/
theorem mass_matrix_baseOnly : free_floating_mass_matrix baseOnlyModel restData = 1 := by
  rw [free_floating_mass_matrix]
  rw [show baseOnlyModel.nLinks = 1 from rfl]
  rw [Finset.sum_range_one, linkJac_zero]
  rw [show baseOnlyModel.inertia 0 = 1 from rfl, Matrix.mul_one]
  rw [Matrix.transpose_fromColumns, Matrix.fromRows_mul_fromColumns]
  rw [Matrix.transpose_one, Matrix.transpose_zero]
  simp only [Matrix.one_mul, Matrix.mul_zero, Matrix.zero_mul, Matrix.mul_one]
  have h00 : (0 : Matrix (Fin 0) (Fin 0) ℚ) = 1 := by
    ext i j
    exact i.elim0
  rw [h00, Matrix.fromBlocks_one]

/-- On the base-only model the articulated inertia of the base is the identity. -/
theorem abaPair_baseOnly_fst :
    (abaPair baseOnlyModel restData (fun _ => 0) (fun _ => 0) 0).1 = 1 := rfl

/-- The per-joint nondegeneracy hypothesis holds vacuously on the base-only model. -/
theorem hd_baseOnly : ∀ c, 1 ≤ c → c ≤ baseOnlyModel.nJ →
    baseOnlyModel.S c ⬝ᵥ
      (abaPair baseOnlyModel restData (fun _ => 0) (fun _ => 0) c).1.mulVec
        (baseOnlyModel.S c) ≠ 0 :=
  fun _ h1 h2 => absurd (h1.trans h2) (by decide)

/-- The concrete pose `witPose` is valid. -/
theorem witPose_valid : witPose.Valid := by
  constructor
  · ext i j
    fin_cases i <;> fin_cases j <;>
      simp [witPose, Matrix.mul_apply, Fin.sum_univ_three, Matrix.one_apply,
        Matrix.vecHead, Matrix.vecTail] <;> norm_num
  · rw [Matrix.det_fin_three]
    simp [witPose, Matrix.vecHead, Matrix.vecTail]
    norm_num

/-- The singleton considered-joint list is valid for the one-joint model. -/
theorem csValid_wit : CsValid witModel [1] :=
  ⟨List.chain'_singleton 1, by decide⟩

/-- Link names of the one-joint model are unique. -/
theorem linkNamesInj_wit : LinkNamesInj witModel := by
  intro i j hi hj heq
  rw [show witModel.nLinks = 2 from rfl] at hi hj
  interval_cases i <;> interval_cases j <;> first | rfl | (revert heq; decide)

/-- Frame names of the one-joint model are unique. -/
theorem frameNamesInj_wit : FrameNamesInj witModel := by
  intro i j hi hj _
  rw [show witModel.frames.length = 1 from rfl] at hi hj
  omega

/-- Witness for C1: on the base-only model at rest, with zero torques and
forces, the hypotheses hold and the two forward-dynamics routes agree. -/
theorem forward_dynamics_eom_eq_aba_witness :
    ((abaPair baseOnlyModel restData (fun _ => 0) (fun _ => 0) 0).1).det ≠ 0
    ∧ (free_floating_mass_matrix baseOnlyModel restData).det ≠ 0
    ∧ forward_dynamics baseOnlyModel restData (fun _ => 0) (fun _ => 0)
      = Sum.elim (forward_dynamics_aba baseOnlyModel restData (fun _ => 0) (fun _ => 0)).1
          (forward_dynamics_aba baseOnlyModel restData (fun _ => 0) (fun _ => 0)).2 :=
  ⟨by rw [abaPair_baseOnly_fst]; simp,
   by rw [mass_matrix_baseOnly]; simp,
   forward_dynamics_eom_eq_aba baseOnlyModel restData (fun _ => 0) (fun _ => 0)
     hd_baseOnly (by rw [abaPair_baseOnly_fst]; simp)
     (by rw [mass_matrix_baseOnly]; simp)⟩

/-- Witness for C2: on the base-only model at rest with zero data, forward
dynamics undoes inverse dynamics and vice versa. -/
theorem inverse_dynamics_inverts_forward_dynamics_witness :
    forward_dynamics baseOnlyModel restData
        (inverse_dynamics baseOnlyModel restData 0 (fun _ => 0) (fun _ => 0)).2
        (Function.update (fun _ => (0 : V6)) 0
          (inverse_dynamics baseOnlyModel restData 0 (fun _ => 0) (fun _ => 0)).1)
      = Sum.elim (0 : V6) (fun _ => 0)
    ∧ inverse_dynamics baseOnlyModel restData
        (forward_dynamics_aba baseOnlyModel restData (fun _ => 0) (fun _ => 0)).1
        (forward_dynamics_aba baseOnlyModel restData (fun _ => 0) (fun _ => 0)).2
        (Function.update (fun _ => (0 : V6)) 0 0)
      = (0, fun _ => 0) := by
  have h := inverse_dynamics_inverts_forward_dynamics baseOnlyModel restData 0
    (fun _ => 0) (fun _ => 0) (fun _ => 0) hd_baseOnly
    (by rw [abaPair_baseOnly_fst]; simp) (by rw [mass_matrix_baseOnly]; simp)
  exact ⟨h.1 rfl, h.2⟩

/-- Witness for C3: the mass matrix of the base-only model at rest is
symmetric and positive-definite; the hypotheses hold since every spatial
inertia is the identity and there are no joints. -/
theorem mass_matrix_symm_posdef_witness :
    (free_floating_mass_matrix baseOnlyModel restData)ᵀ
        = free_floating_mass_matrix baseOnlyModel restData
    ∧ PosDefQ (free_floating_mass_matrix baseOnlyModel restData) :=
  mass_matrix_symm_posdef baseOnlyModel restData (fun _ _ => posDefQ_one)
    (fun _ h1 h2 => absurd (h1.trans h2) (by decide))

/-- Witness for C6: on the base-only model at rest the base pose is valid and
the base link's Jacobian in Inertial output maps the Body-represented
generalized velocity to the link's Inertial velocity. -/
theorem jacobian_maps_genvel_to_velocity_witness :
    restData.basePose.Valid
    ∧ (linkJacRepr baseOnlyModel restData VelRepr.Body VelRepr.Inertial 0).mulVec
        (genVelRepr baseOnlyModel restData VelRepr.Body)
      = linkVelRepr baseOnlyModel restData VelRepr.Inertial 0 :=
  ⟨SO3.one,
   (jacobian_maps_genvel_to_velocity baseOnlyModel restData SO3.one).1 0
     (Nat.zero_le _) VelRepr.Body VelRepr.Inertial⟩

/-- Witness for C7: the concrete pose is valid and the Body–Inertial–Body
round-trip reproduces the concrete velocity. -/
theorem velocity_repr_roundtrip_witness :
    witPose.Valid ∧ velToBody witPose (velToInertial witPose witVel) = witVel :=
  ⟨witPose_valid, velocity_repr_roundtrip witPose witPose_valid witVel⟩

/-- Witness for C8: locking the complement of joint 1 of the one-joint model
(nothing) succeeds and the reduced model has exactly one degree of freedom. -/
theorem reduce_locks_joints_witness :
    CsValid witModel [1]
    ∧ (reduce witModel [1] (fun _ => 0)).map MBModel.dofs = Except.ok 1 := by
  refine ⟨csValid_wit, ?_⟩
  obtain ⟨mr, hok, hdofs, -, -⟩ := reduce_locks_joints witModel [1] (fun _ => 0) csValid_wit
  rw [hok, Except.map, hdofs]
  rfl

/-- Witness for C9: index 5 is out of range for the one-joint model, so the
transform queries error, while the in-range base-link query succeeds. -/
theorem out_of_range_queries_error_witness :
    witModel.nLinks ≤ 5
    ∧ linkTransformChecked witModel restData 5 = Except.error "link index out of range"
    ∧ witModel.frames.length ≤ 5
    ∧ frameTransformChecked witModel restData 5 = Except.error "frame index out of range"
    ∧ linkTransformChecked witModel restData 0 = Except.ok (fkPose witModel restData 0) :=
  ⟨by decide,
   ((out_of_range_queries_error witModel restData 5).1 (by decide)).1,
   by decide,
   ((out_of_range_queries_error witModel restData 5).2.1 (by decide)).1,
   (out_of_range_queries_error witModel restData 0).2.2.1 (by decide)⟩

/-- Witness for C10: on the one-joint model with unique names, the link and
frame name–index round-trips hold at concrete indices. -/
theorem name_index_roundtrip_witness :
    LinkNamesInj witModel ∧ FrameNamesInj witModel
    ∧ link_name_to_idx witModel (link_idx_to_name witModel 1) = some 1
    ∧ frame_name_to_idx witModel (frame_idx_to_name witModel 0) = some 0 :=
  ⟨linkNamesInj_wit, frameNamesInj_wit,
   (name_index_roundtrip witModel restData linkNamesInj_wit frameNamesInj_wit).1 1
     (by decide),
   (name_index_roundtrip witModel restData linkNamesInj_wit frameNamesInj_wit).2.2.1 0
     (by decide)⟩

end JaxSimSpec
